import Mathlib

/-!
Verification of the cache-replacement policy engine of
`CacheReplacementSimulator.cpp` (classes `Frame`, `Partition`, `LFRUData`,
`AlgorithmData`, `CacheReplacementSimulator`).

Shallow embedding conventions:
* `Frame` mirrors the C++ `Frame`: `page = -1` is the EMPTY sentinel.
* `std::chrono::steady_clock` timestamps are modelled by a logical `Nat`
  stamp: every frame constructed at initialisation carries stamp `0` and a
  frame touched while processing the reference with zero-based index `t`
  receives stamp `t + 1`.  The C++ clock is monotone across calls, and each
  policy stamps at most one frame per reference, so the order of stamps —
  the only thing any policy reads — is the same.
* `CacheReplacementSimulator::getCurrentTime()` (a pre-incremented static
  counter) is the `ticks` field of the simulation state, threaded through
  the LFU/LFRU helpers exactly where the C++ calls `getCurrentTime()`.
* The `INT_MAX` "never used again" sentinel of `optimal` is modelled as
  `refs.length`, which likewise strictly dominates every real next-use
  index; the induced victim choice is identical for traces shorter than
  `INT_MAX`.
* The Mersenne-twister draw of `random` (`uniform_int_distribution(0,
  numFrames-1)(rng)`) is modelled by an arbitrary oracle `rnd : ℕ → ℕ`
  reduced modulo the frame count, which ranges over exactly the same
  victim choices.
-/

set_option maxHeartbeats 1000000

namespace CacheSim

/-- One cache slot, mirroring the C++ `Frame` (page `-1` = EMPTY). -/
structure Frame where
  index : Int
  page : Int
  time : Nat
  extra : Int
  frequency : Int
  lastUsed : Nat
deriving Repr, DecidableEq

/-- `Frame(idx)` constructor: all metadata cleared, page EMPTY. -/
def initFrame (i : Int) : Frame :=
  { index := i, page := -1, time := 0, extra := 0, frequency := 0, lastUsed := 0 }

instance : Inhabited Frame := ⟨initFrame (-1)⟩

/-- The pages held by a list of frames, in slot order. -/
def pagesOf (l : List Frame) : List Int := l.map (fun f => f.page)

/-- The non-EMPTY pages of a page list. -/
def realPages (ps : List Int) : List Int := ps.filter (fun x => x != -1)

/-- `std::ranges::find_if(table, f.page == r)` as an index. -/
def hitIdx? (l : List Frame) (r : Int) : Option Nat :=
  l.findIdx? (fun f => f.page == r)

/-- `std::ranges::find_if(table, f.page == -1)` as an index. -/
def emptyIdx? (l : List Frame) : Option Nat :=
  l.findIdx? (fun f => f.page == -1)

/-- Apply `g` to the frame at index `i` (no-op when out of range). -/
def updateAt (l : List Frame) (i : Nat) (g : Frame → Frame) : List Frame :=
  match l[i]? with
  | some f => l.set i (g f)
  | none => l

/-- Loop of `std::ranges::min_element`: scan the remaining list, replacing
the current best whenever the candidate is `lt` it (so ties keep the
earliest element). -/
def cppMinIdxGo (lt : Frame → Frame → Bool) : List Frame → Frame → Nat → Nat → Nat
  | [], _, bi, _ => bi
  | y :: ys, b, bi, i => if lt y b then cppMinIdxGo lt ys y i (i + 1) else cppMinIdxGo lt ys b bi (i + 1)

/-- `std::ranges::min_element(l, lt)` as an index (`0`, i.e. `end()`, on the
empty list — callers guard with `l[result]?`). -/
def cppMinIdx (lt : Frame → Frame → Bool) : List Frame → Nat
  | [] => 0
  | x :: xs => cppMinIdxGo lt xs x 0 1

/-- `std::ranges::max_element(l, lt)`: first element no later element
strictly exceeds. -/
def cppMaxIdx (lt : Frame → Frame → Bool) (l : List Frame) : Nat :=
  cppMinIdx (fun a b => lt b a) l

/-- Full simulation state of one policy run.  `hits`/`misses` are owned by
the engine (`processPageReference`); `table`, `victims`, the CLOCK `hand`
(the C++ `static int clockHand`), the LFRU partitions and the
`getCurrentTime()` counter `ticks` are touched by the policy steps. -/
structure SimState where
  table : List Frame
  hand : Nat
  priv : List Frame
  unpriv : List Frame
  ticks : Nat
  hits : Nat
  misses : Nat
  victims : List Frame
deriving Repr, DecidableEq

/-- `PRIVILEGED_PARTITION_SIZE` from the header. -/
def PRIVILEGED_PARTITION_SIZE : Nat := 5

/-- `UNPRIVILEGED_PARTITION_SIZE` from the header. -/
def UNPRIVILEGED_PARTITION_SIZE : Nat := 5

/-- `Partition::Partition(size)`: `size` empty frames (their `index` is the
default `-1`; partition frames never use it). -/
def initPartition (n : Nat) : List Frame := List.replicate n (initFrame (-1))

/-- `AlgorithmData(numFrames)` plus the LFRU substate and the engine-side
counters; `h0` is the starting value of the CLOCK hand (the C++ static
initialiser is `0`, but the static survives across runs — see `c8`). -/
def initState (F : Nat) (h0 : Nat) : SimState :=
  { table := (List.range F).map (fun i => initFrame i)
    hand := h0
    priv := initPartition PRIVILEGED_PARTITION_SIZE
    unpriv := initPartition UNPRIVILEGED_PARTITION_SIZE
    ticks := 0
    hits := 0
    misses := 0
    victims := [] }

/-! ### OPTIMAL (Belady) -/

/-- The forward scan of `optimal`: the first position `i ≥ start` of the
trace holding page `x`, with the "never used again" sentinel (`INT_MAX` in
the C++) modelled as `refs.length`. -/
def nextUseAbs (refs : List Int) (start : Nat) (x : Int) : Nat :=
  match (refs.drop start).findIdx? (fun y => y == x) with
  | some i => start + i
  | none => refs.length

/-- The victim loop of `optimal`: `maxDistance = -1`, `victimIt = begin()`,
update on strictly larger key — i.e. the first index of maximal key. -/
def optVictimGo (key : Frame → Nat) : List Frame → Int → Nat → Nat → Nat
  | [], _, bi, _ => bi
  | f :: fs, maxD, bi, i =>
    if (key f : Int) > maxD then optVictimGo key fs (key f) i (i + 1)
    else optVictimGo key fs maxD bi (i + 1)

def optVictim (key : Frame → Nat) (l : List Frame) : Nat := optVictimGo key l (-1) 0 0

/-- `CacheReplacementSimulator::optimal`.  The C++ dereferences `victimIt`
unguarded; the `s.table[v]?` match only totalises the empty-table case. -/
def optimalStep (refs : List Int) (s : SimState) (r : Int) (t : Nat) : SimState × Bool :=
  match hitIdx? s.table r with
  | some i =>
    ({ s with table := updateAt s.table i (fun f => { f with time := t + 1, extra := (t : Int) }) }, false)
  | none =>
    match emptyIdx? s.table with
    | some i =>
      ({ s with table := updateAt s.table i (fun f => { f with page := r, time := t + 1, extra := (t : Int) }) }, true)
    | none =>
      let v := optVictim (fun f => nextUseAbs refs (t + 1) f.page) s.table
      match s.table[v]? with
      | some vf =>
        ({ s with
            table := s.table.set v { vf with page := r, time := t + 1, extra := (t : Int) }
            victims := s.victims ++ [vf] }, true)
      | none => (s, true)

/-! ### RANDOM -/

/-- `CacheReplacementSimulator::random`; `rv` is the PRNG draw, reduced to
`[0, numFrames)` as by `uniform_int_distribution(0, numFrames-1)`. -/
def randomStep (s : SimState) (r : Int) (t : Nat) (rv : Nat) : SimState × Bool :=
  match hitIdx? s.table r with
  | some i =>
    ({ s with table := updateAt s.table i (fun f => { f with time := t + 1, extra := (t : Int) }) }, false)
  | none =>
    match emptyIdx? s.table with
    | some i =>
      ({ s with table := updateAt s.table i (fun f => { f with page := r, time := t + 1, extra := (t : Int) }) }, true)
    | none =>
      let v := rv % s.table.length
      match s.table[v]? with
      | some vf =>
        ({ s with
            table := s.table.set v { vf with page := r, time := t + 1, extra := (t : Int) }
            victims := s.victims ++ [vf] }, true)
      | none => (s, true)

/-! ### FIFO -/

/-- `CacheReplacementSimulator::fifo`: a hit changes nothing at all. -/
def fifoStep (s : SimState) (r : Int) (t : Nat) : SimState × Bool :=
  match hitIdx? s.table r with
  | some _ => (s, false)
  | none =>
    match emptyIdx? s.table with
    | some i =>
      ({ s with table := updateAt s.table i (fun f => { f with page := r, time := t + 1, extra := (t : Int) }) }, true)
    | none =>
      let v := cppMinIdx (fun a b => a.extra < b.extra) s.table
      match s.table[v]? with
      | some vf =>
        ({ s with
            table := s.table.set v { vf with page := r, time := t + 1, extra := (t : Int) }
            victims := s.victims ++ [vf] }, true)
      | none => (s, true)

/-! ### LRU -/

/-- `CacheReplacementSimulator::lru`: victim has minimal `time`. -/
def lruStep (s : SimState) (r : Int) (t : Nat) : SimState × Bool :=
  match hitIdx? s.table r with
  | some i =>
    ({ s with table := updateAt s.table i (fun f => { f with time := t + 1, extra := (t : Int) }) }, false)
  | none =>
    match emptyIdx? s.table with
    | some i =>
      ({ s with table := updateAt s.table i (fun f => { f with page := r, time := t + 1, extra := (t : Int) }) }, true)
    | none =>
      let v := cppMinIdx (fun a b => a.time < b.time) s.table
      match s.table[v]? with
      | some vf =>
        ({ s with
            table := s.table.set v { vf with page := r, time := t + 1, extra := (t : Int) }
            victims := s.victims ++ [vf] }, true)
      | none => (s, true)

/-! ### CLOCK -/

/-- The victim-search do-while of `clock`, instrumented with the number of
body executions.  One recursion step = one loop body: either the frame
under the hand has reference bit `0` (victim found), or the bit is cleared
and the hand advances.  The C++ loop exits when the hand returns to its
start, i.e. after exactly `F` body executions, which is the `fuel`
argument of the top-level call; `none` is the wrapped-around exit. -/
def clockScan (F : Nat) : Nat → List Frame → Nat → List Frame × Option Nat × Nat
  | 0, tb, _ => (tb, none, 0)
  | fuel + 1, tb, h =>
    match tb[h]? with
    | some f =>
      if f.extra = 0 then (tb, some h, 1)
      else
        let rest := clockScan F fuel (tb.set h { f with extra := 0 }) ((h + 1) % F)
        (rest.1, rest.2.1, rest.2.2 + 1)
    | none => (tb, none, 0)

/-- `CacheReplacementSimulator::clock`.  The hand-normalisation
`if (clockHand >= numFrames) clockHand = 0` runs before everything and its
effect on the static persists, so every branch stores the normalised hand. -/
def clockStep (s : SimState) (r : Int) : SimState × Bool :=
  let F := s.table.length
  let h0 := if s.hand ≥ F then 0 else s.hand
  match hitIdx? s.table r with
  | some i =>
    ({ s with hand := h0, table := updateAt s.table i (fun f => { f with extra := 1 }) }, false)
  | none =>
    match emptyIdx? s.table with
    | some i =>
      ({ s with hand := h0, table := updateAt s.table i (fun f => { f with page := r, extra := 1 }) }, true)
    | none =>
      let scanned := clockScan F F s.table h0
      let tb := scanned.1
      match scanned.2.1 with
      | some v =>
        match tb[v]? with
        | some vf =>
          ({ s with
              hand := (v + 1) % F
              table := tb.set v { vf with page := r, extra := 1 }
              victims := s.victims ++ [vf] }, true)
        | none => ({ s with hand := h0, table := tb }, true)
      | none =>
        -- full revolution: every bit cleared, evict at the start position
        match tb[h0]? with
        | some vf =>
          ({ s with
              hand := (h0 + 1) % F
              table := tb.set h0 { vf with page := r, extra := 1 }
              victims := s.victims ++ [vf] }, true)
        | none => ({ s with hand := h0, table := tb }, true)

/-! ### NFU -/

/-- `CacheReplacementSimulator::nfu`. -/
def nfuStep (s : SimState) (r : Int) (t : Nat) : SimState × Bool :=
  match hitIdx? s.table r with
  | some i =>
    ({ s with table := updateAt s.table i (fun f => { f with extra := f.extra + 1, time := t + 1 }) }, false)
  | none =>
    match emptyIdx? s.table with
    | some i =>
      ({ s with table := updateAt s.table i (fun f => { f with page := r, time := t + 1, extra := 0 }) }, true)
    | none =>
      let v := cppMinIdx (fun a b => a.extra < b.extra) s.table
      match s.table[v]? with
      | some vf =>
        ({ s with
            table := s.table.set v { vf with page := r, time := t + 1, extra := 0 }
            victims := s.victims ++ [vf] }, true)
      | none => (s, true)

/-! ### AGING -/

/-- `CacheReplacementSimulator::aging`: first age every non-EMPTY frame
(`extra /= 2`, C++ truncating integer division), then the usual three
branches with a `10000000` "just used" bonus on hits. -/
def agingStep (s : SimState) (r : Int) (t : Nat) : SimState × Bool :=
  let aged := s.table.map (fun f => if f.page != -1 then { f with extra := f.extra / 2 } else f)
  match hitIdx? aged r with
  | some i =>
    ({ s with table := updateAt aged i (fun f => { f with extra := f.extra + 10000000, time := t + 1 }) }, false)
  | none =>
    match emptyIdx? aged with
    | some i =>
      ({ s with table := updateAt aged i (fun f => { f with page := r, time := t + 1, extra := 0 }) }, true)
    | none =>
      let v := cppMinIdx (fun a b => a.extra < b.extra) aged
      match aged[v]? with
      | some vf =>
        ({ s with
            table := aged.set v { vf with page := r, time := t + 1, extra := 0 }
            victims := s.victims ++ [vf] }, true)
      | none => ({ s with table := aged }, true)

/-! ### MRU -/

/-- `CacheReplacementSimulator::mru`: victim has maximal `time`; neither
branch touches `extra`. -/
def mruStep (s : SimState) (r : Int) (t : Nat) : SimState × Bool :=
  match hitIdx? s.table r with
  | some i =>
    ({ s with table := updateAt s.table i (fun f => { f with time := t + 1 }) }, false)
  | none =>
    match emptyIdx? s.table with
    | some i =>
      ({ s with table := updateAt s.table i (fun f => { f with page := r, time := t + 1 }) }, true)
    | none =>
      let v := cppMaxIdx (fun a b => a.time < b.time) s.table
      match s.table[v]? with
      | some vf =>
        ({ s with
            table := s.table.set v { vf with page := r, time := t + 1 }
            victims := s.victims ++ [vf] }, true)
      | none => (s, true)

/-! ### NRU (implemented as LRU without the `extra` bookkeeping) -/

/-- `CacheReplacementSimulator::nru`. -/
def nruStep (s : SimState) (r : Int) (t : Nat) : SimState × Bool :=
  match hitIdx? s.table r with
  | some i =>
    ({ s with table := updateAt s.table i (fun f => { f with time := t + 1 }) }, false)
  | none =>
    match emptyIdx? s.table with
    | some i =>
      ({ s with table := updateAt s.table i (fun f => { f with page := r, time := t + 1 }) }, true)
    | none =>
      let v := cppMinIdx (fun a b => a.time < b.time) s.table
      match s.table[v]? with
      | some vf =>
        ({ s with
            table := s.table.set v { vf with page := r, time := t + 1 }
            victims := s.victims ++ [vf] }, true)
      | none => (s, true)

/-! ### MFU -/

/-- `CacheReplacementSimulator::mfu`: only `extra` bookkeeping, victim has
maximal `extra`. -/
def mfuStep (s : SimState) (r : Int) : SimState × Bool :=
  match hitIdx? s.table r with
  | some i =>
    ({ s with table := updateAt s.table i (fun f => { f with extra := f.extra + 1 }) }, false)
  | none =>
    match emptyIdx? s.table with
    | some i =>
      ({ s with table := updateAt s.table i (fun f => { f with page := r, extra := 1 }) }, true)
    | none =>
      let v := cppMaxIdx (fun a b => a.extra < b.extra) s.table
      match s.table[v]? with
      | some vf =>
        ({ s with
            table := s.table.set v { vf with page := r, extra := 1 }
            victims := s.victims ++ [vf] }, true)
      | none => (s, true)

/-! ### LFU -/

/-- The `(frequency, lastUsed)` comparator of `lfu` and `evictLFU`. -/
def lfuLt (a b : Frame) : Bool :=
  if a.frequency != b.frequency then a.frequency < b.frequency else a.lastUsed < b.lastUsed

/-- `CacheReplacementSimulator::lfu`; `getCurrentTime()` is the
pre-incremented `ticks` counter. -/
def lfuStep (s : SimState) (r : Int) : SimState × Bool :=
  match hitIdx? s.table r with
  | some i =>
    ({ s with
        ticks := s.ticks + 1
        table := updateAt s.table i (fun f => { f with frequency := f.frequency + 1, lastUsed := s.ticks + 1 }) }, false)
  | none =>
    match emptyIdx? s.table with
    | some i =>
      ({ s with
          ticks := s.ticks + 1
          table := updateAt s.table i (fun f => { f with page := r, frequency := 1, lastUsed := s.ticks + 1 }) }, true)
    | none =>
      let v := cppMinIdx lfuLt s.table
      match s.table[v]? with
      | some vf =>
        ({ s with
            ticks := s.ticks + 1
            table := s.table.set v { vf with page := r, frequency := 1, lastUsed := s.ticks + 1 }
            victims := s.victims ++ [vf] }, true)
      | none => (s, true)

/-! ### LFRU helpers (`Partition` operations) -/

/-- `Partition::hasSpace`. -/
def hasSpace (p : List Frame) : Bool := p.any (fun f => f.page == -1)

/-- `Partition::hasPage`. -/
def hasPage (p : List Frame) (pg : Int) : Bool := p.any (fun f => f.page == pg)

/-- `CacheReplacementSimulator::updateLRU`: stamp `lastUsed` of the frame
holding `pg`; returns the partition and the advanced tick counter. -/
def updateLRU (p : List Frame) (pg : Int) (ticks : Nat) : List Frame × Nat :=
  match p.findIdx? (fun f => f.page == pg) with
  | some i => (updateAt p i (fun f => { f with lastUsed := ticks + 1 }), ticks + 1)
  | none => (p, ticks)

/-- `CacheReplacementSimulator::removeFromPartition`: reset the frame
holding `pg` to the empty state (`now` is the wall stamp it writes). -/
def removeFromPartition (p : List Frame) (pg : Int) (now : Nat) : List Frame :=
  match p.findIdx? (fun f => f.page == pg) with
  | some i =>
    updateAt p i (fun f => { f with page := -1, frequency := 0, lastUsed := 0, extra := 0, time := now })
  | none => p

/-- `CacheReplacementSimulator::insertIntoPartition`: fill the first empty
frame (silently a no-op when the partition is full, as in the C++). -/
def insertIntoPartition (p : List Frame) (pg : Int) (ticks : Nat) : List Frame × Nat :=
  match emptyIdx? p with
  | some i =>
    (updateAt p i (fun f => { f with page := pg, lastUsed := ticks + 1, frequency := 1 }), ticks + 1)
  | none => (p, ticks)

/-- `CacheReplacementSimulator::evictLFU`: clear the `(frequency,
lastUsed)`-minimal frame and return its page (`-1` on an empty partition). -/
def evictLFU (p : List Frame) (now : Nat) : List Frame × Int :=
  let v := cppMinIdx lfuLt p
  match p[v]? with
  | some vf =>
    (p.set v { vf with page := -1, frequency := 0, lastUsed := 0, extra := 0, time := now }, vf.page)
  | none => (p, -1)

/-- `CacheReplacementSimulator::demoteLRU`: clear the `lastUsed`-minimal
frame and return its page. -/
def demoteLRU (p : List Frame) (now : Nat) : List Frame × Int :=
  let v := cppMinIdx (fun a b => a.lastUsed < b.lastUsed) p
  match p[v]? with
  | some vf =>
    (p.set v { vf with page := -1, frequency := 0, lastUsed := 0, extra := 0, time := now }, vf.page)
  | none => (p, -1)

/-- The demotion sequence shared by the promotion branch of `lfru` and by
`handlePageInsertion`: demote the LRU of `priv`, make room in `unpriv` if
needed, insert the demoted page there. -/
def demoteInto (priv unpriv : List Frame) (ticks now : Nat) : List Frame × List Frame × Nat :=
  let dres := demoteLRU priv now
  let u1 := if ¬hasSpace unpriv then (evictLFU unpriv now).1 else unpriv
  let ins := insertIntoPartition u1 dres.2 ticks
  (dres.1, ins.1, ins.2)

/-- `CacheReplacementSimulator::handlePageInsertion`. -/
def handlePageInsertion (priv unpriv : List Frame) (pg : Int) (ticks now : Nat) :
    List Frame × List Frame × Nat :=
  if hasSpace priv then
    let ins := insertIntoPartition priv pg ticks
    (ins.1, unpriv, ins.2)
  else
    let dm := demoteInto priv unpriv ticks now
    let ins := insertIntoPartition dm.1 pg dm.2.2
    (ins.1, dm.2.1, ins.2)

/-- `CacheReplacementSimulator::lfru`. -/
def lfruStep (s : SimState) (r : Int) (t : Nat) : SimState × Bool :=
  if hasPage s.priv r then
    let upd := updateLRU s.priv r s.ticks
    ({ s with priv := upd.1, ticks := upd.2 }, false)
  else if hasPage s.unpriv r then
    let u1 := removeFromPartition s.unpriv r (t + 1)
    let step2 :=
      if ¬hasSpace s.priv then demoteInto s.priv u1 s.ticks (t + 1)
      else (s.priv, u1, s.ticks)
    let ins := insertIntoPartition step2.1 r step2.2.2
    ({ s with priv := ins.1, unpriv := step2.2.1, ticks := ins.2 }, false)
  else
    let ins := handlePageInsertion s.priv s.unpriv r s.ticks (t + 1)
    ({ s with priv := ins.1, unpriv := ins.2.1, ticks := ins.2.2 }, true)

/-! ### The engine -/

/-- The twelve policies, in the declaration order of
`initializeAlgorithms`. -/
inductive Policy where
  | OPTIMAL | RANDOM | FIFO | LRU | CLOCK | NFU | AGING | MRU | NRU | MFU | LFU | LFRU
deriving Repr, DecidableEq

/-- Dispatch one reference to one policy (the `algoFunc` call inside
`processPageReference`); `rnd` is the PRNG oracle consulted by RANDOM. -/
def stepOf (p : Policy) (refs : List Int) (rnd : Nat → Nat) (t : Nat) (s : SimState) :
    SimState × Bool :=
  let r := refs.getD t 0
  match p with
  | .OPTIMAL => optimalStep refs s r t
  | .RANDOM => randomStep s r t (rnd t)
  | .FIFO => fifoStep s r t
  | .LRU => lruStep s r t
  | .CLOCK => clockStep s r
  | .NFU => nfuStep s r t
  | .AGING => agingStep s r t
  | .MRU => mruStep s r t
  | .NRU => nruStep s r t
  | .MFU => mfuStep s r
  | .LFU => lfuStep s r
  | .LFRU => lfruStep s r t

/-- `processPageReference` restricted to one policy: run the step, then the
ENGINE increments exactly one of `hits`/`misses` from the returned
fault flag (the policy steps above never touch the two counters). -/
def processRef (p : Policy) (refs : List Int) (rnd : Nat → Nat) (t : Nat) (s : SimState) :
    SimState :=
  let (s', fault) := stepOf p refs rnd t s
  if fault then { s' with misses := s'.misses + 1 } else { s' with hits := s'.hits + 1 }

/-- `runSimulation` for one policy: process references `0, …, n-1`,
starting from `AlgorithmData(F)` with initial CLOCK hand `h0`. -/
def runSimFrom (F h0 : Nat) (p : Policy) (refs : List Int) (rnd : Nat → Nat) : Nat → SimState
  | 0 => initState F h0
  | n + 1 => processRef p refs rnd n (runSimFrom F h0 p refs rnd n)

/-- A fresh-process run: the static CLOCK hand starts at `0`. -/
def runSim (F : Nat) (p : Policy) (refs : List Int) (rnd : Nat → Nat) (n : Nat) : SimState :=
  runSimFrom F 0 p refs rnd n

/-- The resident pages a policy holds: for LFRU the two partitions, for
every other policy the page table. -/
def residentList (p : Policy) (s : SimState) : List Int :=
  match p with
  | .LFRU => realPages (pagesOf s.priv ++ pagesOf s.unpriv)
  | _ => realPages (pagesOf s.table)

/-! ## C2: engine-side hit/miss accounting -/

/-- No policy step touches the `hits`/`misses` counters: they are engine
property. -/
theorem stepOf_counters (p : Policy) (refs : List Int) (rnd : Nat → Nat) (t : Nat) (s : SimState) :
    (stepOf p refs rnd t s).1.hits = s.hits ∧ (stepOf p refs rnd t s).1.misses = s.misses := by
  cases p <;>
    simp only [stepOf, optimalStep, randomStep, fifoStep, lruStep, clockStep, nfuStep, agingStep,
      mruStep, nruStep, mfuStep, lfuStep, lfruStep] <;>
    (repeat' split) <;> exact ⟨rfl, rfl⟩

/-- After `n` processed references, `hits + misses = n`: each call of
`processPageReference` increments exactly one of the two counters, driven
by the step's return value. -/
theorem runSimFrom_counters (F h0 : Nat) (p : Policy) (refs : List Int) (rnd : Nat → Nat) :
    ∀ n, (runSimFrom F h0 p refs rnd n).hits + (runSimFrom F h0 p refs rnd n).misses = n := by
  intro n
  induction n with
  | zero => rfl
  | succ n ih =>
    have hc := stepOf_counters p refs rnd n (runSimFrom F h0 p refs rnd n)
    show (processRef p refs rnd n (runSimFrom F h0 p refs rnd n)).hits +
        (processRef p refs rnd n (runSimFrom F h0 p refs rnd n)).misses = n + 1
    unfold processRef
    cases hsf : stepOf p refs rnd n (runSimFrom F h0 p refs rnd n) with
    | mk s' fault =>
      rw [hsf] at hc
      cases fault <;> simp_all <;> omega

/-- C2.  Counter accounting invariant: for every selected policy, each
processed reference increments exactly one of the policy's hits and misses
counters — the engine does this from the step's return value, and no
policy step modifies `hits`/`misses` (`stepOf_counters`) — so after
processing the reference with zero-based index `t`, `hits + misses = t + 1`. -/
theorem c2_counter_accounting (F : Nat) (p : Policy) (refs : List Int) (rnd : Nat → Nat)
    (t : Nat) (ht : t < refs.length) :
    (runSim F p refs rnd (t + 1)).hits + (runSim F p refs rnd (t + 1)).misses = t + 1 :=
  runSimFrom_counters F 0 p refs rnd (t + 1)

/-- Witness for `c2_counter_accounting` at a concrete trace. -/
theorem c2_counter_accounting_witness :
    1 < ([3, 4, 3] : List Int).length ∧
    (runSim 2 Policy.LRU [3, 4, 3] (fun _ => 0) 2).hits +
      (runSim 2 Policy.LRU [3, 4, 3] (fun _ => 0) 2).misses = 2 :=
  ⟨by decide, c2_counter_accounting 2 Policy.LRU [3, 4, 3] (fun _ => 0) 1 (by decide)⟩

/-! ## C4: a FIFO hit changes nothing -/

/-- C4.  FIFO hit is a no-op: whenever some frame holds the requested
page, the FIFO step returns Hit (`false` = no fault) and the whole state —
in particular every field of every frame of the page table — is unchanged. -/
theorem c4_fifo_hit_noop (s : SimState) (r : Int) (t : Nat)
    (h : ∃ f ∈ s.table, f.page = r) : fifoStep s r t = (s, false) := by
  obtain ⟨f, hf, hp⟩ := h
  unfold fifoStep
  cases heq : hitIdx? s.table r with
  | some i => rfl
  | none =>
    exfalso
    rw [hitIdx?, List.findIdx?_eq_none_iff] at heq
    have := heq f hf
    simp [hp] at this

/-- Witness for `c4_fifo_hit_noop`: a table holding page `7`. -/
theorem c4_fifo_hit_noop_witness :
    (∃ f ∈ (runSim 2 Policy.FIFO [7] (fun _ => 0) 1).table, f.page = 7) ∧
    fifoStep (runSim 2 Policy.FIFO [7] (fun _ => 0) 1) 7 1 =
      (runSim 2 Policy.FIFO [7] (fun _ => 0) 1, false) :=
  ⟨by decide, c4_fifo_hit_noop _ 7 1 (by decide)⟩

/-! ## C7: frame-count clamping and the LFRU adjustment -/

/-- `P₁ + P₂`, the minimum LFRU frame count. -/
def totalLFRUFrames : Nat := PRIVILEGED_PARTITION_SIZE + UNPRIVILEGED_PARTITION_SIZE

/-- The LFRU validation in `main`: for codes `f`/`a` with fewer than
`P₁+P₂` frames, raise the count and emit the recorded warning (the
returned flag). -/
def adjustFramesForLFRU (code : Char) (n : Int) : Int × Bool :=
  if (code = 'f' ∨ code = 'a') ∧ n < (totalLFRUFrames : Int) then ((totalLFRUFrames : Int), true)
  else (n, false)

/-- `setConfiguration`: `numFrames = std::max(1, frames)`. -/
def setConfigFrames (frames : Int) : Int := max 1 frames

/-- C7.  LFRU frame-count adjustment: the effective frame count is always
at least 1 (values below 1 are clamped), and when LFRU or ALL is selected
with a configured value below `P₁+P₂` the count is raised to `P₁+P₂` with
the adjustment recorded (warning flag). -/
theorem c7_frame_count_adjustment (code : Char) (n : Int) :
    1 ≤ setConfigFrames (adjustFramesForLFRU code n).1 ∧
    ((code = 'f' ∨ code = 'a') → n < (totalLFRUFrames : Int) →
      setConfigFrames (adjustFramesForLFRU code n).1 = (totalLFRUFrames : Int) ∧
      (adjustFramesForLFRU code n).2 = true) := by
  constructor
  · unfold setConfigFrames adjustFramesForLFRU
    split <;> simp
  · intro h1 h2
    unfold setConfigFrames adjustFramesForLFRU
    rw [if_pos ⟨h1, h2⟩]
    refine ⟨?_, rfl⟩
    simp [totalLFRUFrames, PRIVILEGED_PARTITION_SIZE, UNPRIVILEGED_PARTITION_SIZE]

/-- Witness for `c7_frame_count_adjustment` at code `f`, 3 frames. -/
theorem c7_frame_count_adjustment_witness :
    1 ≤ setConfigFrames (adjustFramesForLFRU 'f' 3).1 ∧
    setConfigFrames (adjustFramesForLFRU 'f' 3).1 = (totalLFRUFrames : Int) ∧
    (adjustFramesForLFRU 'f' 3).2 = true :=
  ⟨(c7_frame_count_adjustment 'f' 3).1,
   (c7_frame_count_adjustment 'f' 3).2 (Or.inl rfl) (by decide)⟩

/-! ## C9: trace ingestion -/

/-- The loop `while (file >> pid >> page)`: consume the token stream
pairwise; any failed extraction (non-integer token, or end of input after
an unpaired `pid`) terminates ingestion, keeping the pairs already read. -/
def parsePairs : List (Option Int) → List (Int × Int)
  | some pid :: some page :: rest => (pid, page) :: parsePairs rest
  | _ => []

/-- `loadPageReferences`: `none` is an unreadable file
(`!file.is_open()` — returns `false` before anything is read); a readable
file is its list of lines, each a list of whitespace-separated tokens
(`some k` = token extracting as integer `k`).  `operator>>` skips line
structure, so the C++ loop reads the flattened token stream. -/
def loadPageReferences : Option (List (List (Option Int))) → Bool × List (Int × Int)
  | none => (false, [])
  | some lines => (true, parsePairs lines.flatten)

/-- Modelled from the spec: the claim's line-based reading of ingestion —
"the first line that fails to parse two integers terminates ingestion,
keeping every reference successfully read before it".  Used only to
compare against the code's token-based `loadPageReferences`. -/
def lineIngestSpec : List (List (Option Int)) → List (Int × Int)
  | [] => []
  | [some a, some b] :: rest => (a, b) :: lineIngestSpec rest
  | _ => []

/-- C9 counterexample.  On the file whose first line is `1` and whose
second line is `2 3`, the line-based claim stops at the malformed first
line and keeps nothing, but the code pairs tokens across the line break
and keeps `(1, 2)`. -/
theorem c9_counterexample :
    (loadPageReferences (some [[some 1], [some 2, some 3]])).2 ≠
      lineIngestSpec [[some 1], [some 2, some 3]] ∧
    (loadPageReferences (some [[some 1], [some 2, some 3]])).2 = [(1, 2)] ∧
    lineIngestSpec [[some 1], [some 2, some 3]] = [] := by
  decide

/-- Encoding of a list of well-formed references as a token stream. -/
def encodePairs (ps : List (Int × Int)) : List (Option Int) :=
  (ps.map (fun q => [some q.1, some q.2])).flatten

/-- C9 (amended).  Loading an unreadable file fails (returns `false`)
before any reference is produced; an empty file loads successfully with
zero references; otherwise ingestion reads whitespace-separated integer
tokens pairwise as (pid, page) and the first token failing to parse — or
end of input after an unpaired pid — terminates ingestion, keeping every
complete pair read before it. -/
theorem c9_token_ingestion :
    loadPageReferences none = (false, []) ∧
    loadPageReferences (some []) = (true, []) ∧
    (∀ ps ts, parsePairs (encodePairs ps ++ ts) = ps ++ parsePairs ts) ∧
    (∀ rest, parsePairs (none :: rest) = []) ∧
    (∀ pid, parsePairs [some pid] = []) ∧
    (∀ pid rest, parsePairs (some pid :: none :: rest) = []) := by
  refine ⟨rfl, rfl, ?_, fun rest => rfl, fun pid => rfl, fun pid rest => rfl⟩
  intro ps ts
  induction ps with
  | nil => simp [encodePairs, List.flatten]
  | cons q ps ih =>
    have : encodePairs (q :: ps) = some q.1 :: some q.2 :: encodePairs ps := by
      simp [encodePairs, List.flatten]
    rw [this]
    simpa [parsePairs] using ih

/-! ## C10: selectAlgorithm deselects first, errors are not atomic -/

/-- The valid algorithm codes, in switch order. -/
def ALL_CODES : List Char := ['O', 'R', 'F', 'L', 'C', 'N', 'A', 'M', 'n', 'm', 'l', 'f', 'a']

/-- `selectAlgorithm`: first deselect every policy, then switch on the
code; the returned flag records the `std::invalid_argument` throw.  The
incoming selection `sel` is deliberately ignored, as in the C++ the
`selected` flags are overwritten before the switch. -/
def selectAlgorithm (code : Char) (sel : List Bool) : List Bool × Bool :=
  let cleared := List.replicate 12 false
  match code with
  | 'O' => (cleared.set 0 true, false)
  | 'R' => (cleared.set 1 true, false)
  | 'F' => (cleared.set 2 true, false)
  | 'L' => (cleared.set 3 true, false)
  | 'C' => (cleared.set 4 true, false)
  | 'N' => (cleared.set 5 true, false)
  | 'A' => (cleared.set 6 true, false)
  | 'M' => (cleared.set 7 true, false)
  | 'n' => (cleared.set 8 true, false)
  | 'm' => (cleared.set 9 true, false)
  | 'l' => (cleared.set 10 true, false)
  | 'f' => (cleared.set 11 true, false)
  | 'a' => (List.replicate 12 true, false)
  | _ => (cleared, true)

/-- C10.  `selectAlgorithm` deselects every policy before applying the
requested code, so an invalid code throws after that deselection: on
error no policy remains selected and the previously selected set is not
restored (the result does not depend on `sel`). -/
theorem c10_select_not_atomic (sel : List Bool) (code : Char) (h : code ∉ ALL_CODES) :
    selectAlgorithm code sel = (List.replicate 12 false, true) := by
  unfold selectAlgorithm
  split <;> first
    | rfl
    | (exfalso; apply h; simp_all [ALL_CODES])

/-- Witness for `c10_select_not_atomic`: code `x` with everything
selected beforehand. -/
theorem c10_select_not_atomic_witness :
    'x' ∉ ALL_CODES ∧
    selectAlgorithm 'x' (List.replicate 12 true) = (List.replicate 12 false, true) :=
  ⟨by decide, c10_select_not_atomic (List.replicate 12 true) 'x' (by decide)⟩

/-! ## C8: the CLOCK hand is a process-global static -/

/-- C8.  The C++ CLOCK hand is `static int clockHand` inside `clock()`:
it persists across simulator runs.  Re-running the engine on the same
3-reference trace with 2 frames (tables re-initialised by
`initializeAlgorithms`, hand carried over as the static is) produces a
different victim log: the first run (hand starts at 0) evicts page 0, the
second (hand left at 1) evicts page 1 — contradicting the claimed
per-run determinism of CLOCK. -/
theorem c8_clock_hand_leaks_across_runs :
    ((runSimFrom 2 ((runSimFrom 2 0 Policy.CLOCK [0, 1, 2] (fun _ => 0) 3).hand)
        Policy.CLOCK [0, 1, 2] (fun _ => 0) 3).victims.map (fun f => f.page) ≠
      (runSimFrom 2 0 Policy.CLOCK [0, 1, 2] (fun _ => 0) 3).victims.map (fun f => f.page)) ∧
    (runSimFrom 2 0 Policy.CLOCK [0, 1, 2] (fun _ => 0) 3).hand = 1 ∧
    (runSimFrom 2 0 Policy.CLOCK [0, 1, 2] (fun _ => 0) 3).victims.map (fun f => f.page) = [0] ∧
    (runSimFrom 2 1 Policy.CLOCK [0, 1, 2] (fun _ => 0) 3).victims.map (fun f => f.page) = [1] := by
  decide

/-! ## Table helper lemmas -/

theorem pagesOf_length (l : List Frame) : (pagesOf l).length = l.length := by
  simp [pagesOf]

theorem pagesOf_set (l : List Frame) (i : Nat) (f : Frame) :
    pagesOf (l.set i f) = (pagesOf l).set i f.page := by
  simp [pagesOf, List.map_set]

theorem set_of_getElem?_eq_some {α : Type} {l : List α} {i : Nat} {a : α}
    (h : l[i]? = some a) : l.set i a = l := by
  have hi : i < l.length := (List.getElem?_eq_some_iff.mp h).1
  apply List.ext_getElem?
  intro n
  by_cases hn : n = i
  · subst hn; rw [List.getElem?_set_self hi, h]
  · rw [List.getElem?_set_ne (Ne.symm hn)]

theorem pagesOf_getElem? (l : List Frame) (i : Nat) :
    (pagesOf l)[i]? = l[i]?.map (fun f => f.page) := by
  simp [pagesOf]

theorem pagesOf_updateAt_meta (l : List Frame) (i : Nat) (g : Frame → Frame)
    (hg : ∀ f, (g f).page = f.page) : pagesOf (updateAt l i g) = pagesOf l := by
  unfold updateAt
  cases h : l[i]? with
  | none => rfl
  | some f =>
    rw [pagesOf_set, hg]
    apply set_of_getElem?_eq_some
    rw [pagesOf_getElem?, h]
    rfl

theorem pagesOf_updateAt_of_getElem? (l : List Frame) (i : Nat) (g : Frame → Frame) (f : Frame)
    (h : l[i]? = some f) : pagesOf (updateAt l i g) = (pagesOf l).set i (g f).page := by
  unfold updateAt
  rw [h, pagesOf_set]

/-! ## C5: CLOCK victim search -/

theorem clockScan_succ_some (F fuel : Nat) (tb : List Frame) (h : Nat) (f : Frame)
    (htb : tb[h]? = some f) :
    clockScan F (fuel + 1) tb h =
      if f.extra = 0 then (tb, some h, 1)
      else
        ((clockScan F fuel (tb.set h { f with extra := 0 }) ((h + 1) % F)).1,
         (clockScan F fuel (tb.set h { f with extra := 0 }) ((h + 1) % F)).2.1,
         (clockScan F fuel (tb.set h { f with extra := 0 }) ((h + 1) % F)).2.2 + 1) := by
  simp only [clockScan, htb]

theorem clockScan_succ_none (F fuel : Nat) (tb : List Frame) (h : Nat)
    (htb : tb[h]? = none) :
    clockScan F (fuel + 1) tb h = (tb, none, 0) := by
  simp only [clockScan, htb]

theorem clockScan_count_le (F : Nat) :
    ∀ fuel (tb : List Frame) (h : Nat), (clockScan F fuel tb h).2.2 ≤ fuel := by
  intro fuel
  induction fuel with
  | zero => intro tb h; simp [clockScan]
  | succ fuel ih =>
    intro tb h
    cases htb : tb[h]? with
    | none => rw [clockScan_succ_none F fuel tb h htb]; simp
    | some f =>
      rw [clockScan_succ_some F fuel tb h f htb]
      by_cases hf : f.extra = 0
      · rw [if_pos hf]; simp
      · rw [if_neg hf]
        have := ih (tb.set h { f with extra := 0 }) ((h + 1) % F)
        simpa using Nat.succ_le_succ this

theorem clockScan_pages (F : Nat) :
    ∀ fuel (tb : List Frame) (h : Nat), pagesOf (clockScan F fuel tb h).1 = pagesOf tb := by
  intro fuel
  induction fuel with
  | zero => intro tb h; rfl
  | succ fuel ih =>
    intro tb h
    cases htb : tb[h]? with
    | none => rw [clockScan_succ_none F fuel tb h htb]
    | some f =>
      rw [clockScan_succ_some F fuel tb h f htb]
      by_cases hf : f.extra = 0
      · rw [if_pos hf]
      · rw [if_neg hf]
        show pagesOf (clockScan F fuel (tb.set h { f with extra := 0 }) ((h + 1) % F)).1 = pagesOf tb
        rw [ih, pagesOf_set]
        apply set_of_getElem?_eq_some
        rw [pagesOf_getElem?, htb]
        rfl

theorem clockScan_length (F fuel : Nat) (tb : List Frame) (h : Nat) :
    (clockScan F fuel tb h).1.length = tb.length := by
  rw [← pagesOf_length, clockScan_pages, pagesOf_length]

theorem clockScan_some_lt (F : Nat) :
    ∀ fuel (tb : List Frame) (h v : Nat), (clockScan F fuel tb h).2.1 = some v → v < tb.length := by
  intro fuel
  induction fuel with
  | zero => intro tb h v hv; simp [clockScan] at hv
  | succ fuel ih =>
    intro tb h v hv
    cases htb : tb[h]? with
    | none => rw [clockScan_succ_none F fuel tb h htb] at hv; simp at hv
    | some f =>
      rw [clockScan_succ_some F fuel tb h f htb] at hv
      by_cases hf : f.extra = 0
      · rw [if_pos hf] at hv
        simp at hv
        subst hv
        exact (List.getElem?_eq_some_iff.mp htb).1
      · rw [if_neg hf] at hv
        have hv' : (clockScan F fuel (tb.set h { f with extra := 0 }) ((h + 1) % F)).2.1 = some v := hv
        have := ih (tb.set h { f with extra := 0 }) ((h + 1) % F) v hv'
        simpa using this

/-- C5.  CLOCK victim search terminates within one revolution: on a full
page table (no EMPTY frame), whatever the reference bits, the search loop
of `clock` executes its body at most `F` times (the instrumented count of
`clockScan`), and on a miss the step always evicts some resident victim —
the victim log grows by exactly one non-EMPTY snapshot — before installing
the requested page. -/
theorem c5_clock_search_bounded (s : SimState) (r : Int)
    (hfull : ∀ f ∈ s.table, f.page ≠ -1)
    (hmiss : hitIdx? s.table r = none)
    (hF : 1 ≤ s.table.length) :
    (clockScan s.table.length s.table.length s.table
        (if s.hand ≥ s.table.length then 0 else s.hand)).2.2 ≤ s.table.length ∧
    (clockStep s r).2 = true ∧
    (∃ vf, (clockStep s r).1.victims = s.victims ++ [vf] ∧ vf.page ≠ -1) ∧
    r ∈ pagesOf (clockStep s r).1.table := by
  have hempty : emptyIdx? s.table = none := by
    rw [emptyIdx?, List.findIdx?_eq_none_iff]
    intro f hf
    simpa using hfull f hf
  refine ⟨clockScan_count_le _ _ _ _, ?_⟩
  unfold clockStep
  rw [hmiss, hempty]
  dsimp only
  set h0 := if s.hand ≥ s.table.length then 0 else s.hand with hh0
  have hh0lt : h0 < s.table.length := by
    rw [hh0]; split <;> omega
  set scanned := clockScan s.table.length s.table.length s.table h0 with hscan
  have hlen : scanned.1.length = s.table.length := clockScan_length _ _ _ _
  have hpg : pagesOf scanned.1 = pagesOf s.table := clockScan_pages _ _ _ _
  have pageAt : ∀ v : Nat, v < s.table.length →
      ∃ hv1 : v < scanned.1.length, scanned.1[v].page = s.table[v].page := by
    intro v hv
    have hv1 : v < scanned.1.length := by omega
    refine ⟨hv1, ?_⟩
    have := congrArg (fun ps => ps[v]?) hpg
    simp only [pagesOf_getElem?, List.getElem?_eq_getElem, hv, hv1, Option.map_some] at this
    exact Option.some.inj this
  cases hres : scanned.2.1 with
  | some v =>
    have hv : v < s.table.length := clockScan_some_lt _ _ _ _ _ hres
    obtain ⟨hv1, hvp⟩ := pageAt v hv
    dsimp only
    rw [List.getElem?_eq_getElem hv1]
    refine ⟨rfl, ⟨scanned.1[v], rfl, ?_⟩, ?_⟩
    · rw [hvp]
      exact hfull _ (List.getElem_mem hv)
    · show r ∈ pagesOf (scanned.1.set v _)
      rw [pagesOf_set]
      have hv2 : v < (pagesOf scanned.1).length := by rw [pagesOf_length]; omega
      exact List.mem_set _ v hv2 r
  | none =>
    obtain ⟨hv1, hvp⟩ := pageAt h0 hh0lt
    dsimp only
    rw [List.getElem?_eq_getElem hv1]
    refine ⟨rfl, ⟨scanned.1[h0], rfl, ?_⟩, ?_⟩
    · rw [hvp]
      exact hfull _ (List.getElem_mem hh0lt)
    · show r ∈ pagesOf (scanned.1.set h0 _)
      rw [pagesOf_set]
      have hv2 : h0 < (pagesOf scanned.1).length := by rw [pagesOf_length]; omega
      exact List.mem_set _ h0 hv2 r

/-- Witness for `c5_clock_search_bounded`: full 2-frame table, request 5. -/
theorem c5_clock_search_bounded_witness :
    (∀ f ∈ (runSim 2 Policy.CLOCK [0, 1] (fun _ => 0) 2).table, f.page ≠ -1) ∧
    hitIdx? (runSim 2 Policy.CLOCK [0, 1] (fun _ => 0) 2).table 5 = none ∧
    1 ≤ (runSim 2 Policy.CLOCK [0, 1] (fun _ => 0) 2).table.length ∧
    (clockStep (runSim 2 Policy.CLOCK [0, 1] (fun _ => 0) 2) 5).2 = true ∧
    (∃ vf, (clockStep (runSim 2 Policy.CLOCK [0, 1] (fun _ => 0) 2) 5).1.victims =
        (runSim 2 Policy.CLOCK [0, 1] (fun _ => 0) 2).victims ++ [vf] ∧ vf.page ≠ -1) :=
  ⟨by decide, by decide, by decide,
   (c5_clock_search_bounded (runSim 2 Policy.CLOCK [0, 1] (fun _ => 0) 2) 5
      (by decide) (by decide) (by decide)).2.1,
   (c5_clock_search_bounded (runSim 2 Policy.CLOCK [0, 1] (fun _ => 0) 2) 5
      (by decide) (by decide) (by decide)).2.2.1⟩

/-! ### Bounds for the victim-selection loops -/

theorem cppMinIdxGo_lt (lt : Frame → Frame → Bool) :
    ∀ (ys : List Frame) (b : Frame) (bi i bound : Nat),
      bi < bound → i + ys.length ≤ bound → cppMinIdxGo lt ys b bi i < bound := by
  intro ys
  induction ys with
  | nil => intro b bi i bound h1 h2; simpa [cppMinIdxGo] using h1
  | cons y ys ih =>
    intro b bi i bound h1 h2
    simp only [List.length_cons] at h2
    unfold cppMinIdxGo
    split
    · exact ih y i (i + 1) bound (by omega) (by omega)
    · exact ih b bi (i + 1) bound h1 (by omega)

theorem cppMinIdx_lt (lt : Frame → Frame → Bool) (l : List Frame) (h : l ≠ []) :
    cppMinIdx lt l < l.length := by
  cases l with
  | nil => simp at h
  | cons x xs =>
    show cppMinIdxGo lt xs x 0 1 < (x :: xs).length
    simp only [List.length_cons]
    exact cppMinIdxGo_lt lt xs x 0 1 (xs.length + 1) (by omega) (by omega)

theorem cppMaxIdx_lt (lt : Frame → Frame → Bool) (l : List Frame) (h : l ≠ []) :
    cppMaxIdx lt l < l.length := cppMinIdx_lt _ l h

theorem optVictimGo_lt (key : Frame → Nat) :
    ∀ (fs : List Frame) (maxD : Int) (bi i bound : Nat),
      bi < bound → i + fs.length ≤ bound → optVictimGo key fs maxD bi i < bound := by
  intro fs
  induction fs with
  | nil => intro maxD bi i bound h1 h2; simpa [optVictimGo] using h1
  | cons f fs ih =>
    intro maxD bi i bound h1 h2
    simp only [List.length_cons] at h2
    unfold optVictimGo
    split
    · exact ih (key f) i (i + 1) bound (by omega) (by omega)
    · exact ih maxD bi (i + 1) bound h1 (by omega)

theorem optVictim_lt (key : Frame → Nat) (l : List Frame) (h : l ≠ []) :
    optVictim key l < l.length := by
  cases l with
  | nil => simp at h
  | cons x xs =>
    show optVictimGo key (x :: xs) (-1) 0 0 < (x :: xs).length
    exact optVictimGo_lt key (x :: xs) (-1) 0 0 (x :: xs).length (by simp) (by simp)

/-! ## Residency: membership and no-duplication lemmas -/

theorem mem_realPages {ps : List Int} {x : Int} :
    x ∈ realPages ps ↔ x ∈ ps ∧ x ≠ -1 := by
  simp [realPages, List.mem_filter]

theorem mem_of_mem_realPages_set {ps : List Int} {i : Nat} {x y : Int}
    (h : y ∈ realPages (ps.set i x)) : y = x ∨ y ∈ realPages ps := by
  obtain ⟨hmem, hne⟩ := mem_realPages.mp h
  rcases List.mem_or_eq_of_mem_set hmem with h1 | h1
  · exact Or.inr (mem_realPages.mpr ⟨h1, hne⟩)
  · exact Or.inl h1

theorem nodup_realPages_cons_elim {a : Int} {l : List Int}
    (h : (realPages (a :: l)).Nodup) : (realPages l).Nodup := by
  by_cases ha : a = -1
  · simpa [realPages, List.filter_cons, ha] using h
  · have : realPages (a :: l) = a :: realPages l := by
      simp [realPages, List.filter_cons, ha]
    rw [this] at h
    exact h.of_cons

theorem nodup_realPages_set {ps : List Int} {i : Nat} {x : Int}
    (hnd : (realPages ps).Nodup) (hx : x ∉ realPages ps) :
    (realPages (ps.set i x)).Nodup := by
  induction ps generalizing i with
  | nil => simpa using hnd
  | cons a l ih =>
    have hxl : x ∉ realPages l := by
      intro hm
      apply hx
      obtain ⟨h1, h2⟩ := mem_realPages.mp hm
      exact mem_realPages.mpr ⟨List.mem_cons_of_mem a h1, h2⟩
    cases i with
    | zero =>
      show (realPages (x :: l)).Nodup
      by_cases hxo : x = -1
      · simpa [realPages, List.filter_cons, hxo] using nodup_realPages_cons_elim hnd
      · have : realPages (x :: l) = x :: realPages l := by
          simp [realPages, List.filter_cons, hxo]
        rw [this]
        exact List.Nodup.cons (fun hmem => hxl hmem) (nodup_realPages_cons_elim hnd)
    | succ i =>
      show (realPages (a :: l.set i x)).Nodup
      by_cases hao : a = -1
      · have : realPages (a :: l.set i x) = realPages (l.set i x) := by
          simp [realPages, List.filter_cons, hao]
        rw [this]
        exact ih (nodup_realPages_cons_elim hnd) hxl
      · have hcons : realPages (a :: l) = a :: realPages l := by
          simp [realPages, List.filter_cons, hao]
        have hcons' : realPages (a :: l.set i x) = a :: realPages (l.set i x) := by
          simp [realPages, List.filter_cons, hao]
        rw [hcons] at hnd
        rw [hcons']
        refine List.Nodup.cons ?_ (ih hnd.of_cons hxl)
        intro hmem
        rcases mem_of_mem_realPages_set hmem with h1 | h1
        · apply hx
          rw [hcons, ← h1]
          exact List.mem_cons_self a (realPages l)
        · exact (List.nodup_cons.mp hnd).1 h1

theorem realPages_append (a b : List Int) :
    realPages (a ++ b) = realPages a ++ realPages b := by
  simp [realPages, List.filter_append]

theorem neg_one_not_mem_realPages (ps : List Int) : (-1 : Int) ∉ realPages ps := by
  intro h
  exact (mem_realPages.mp h).2 rfl

/-- Removing the first occurrence of `x` from a duplicate-free page list
removes it completely. -/
theorem not_mem_realPages_set_of_findIdx? {ps : List Int} {x : Int} {i : Nat}
    (hnd : (realPages ps).Nodup) (hfind : ps.findIdx? (fun y => y == x) = some i) :
    x ∉ realPages (ps.set i (-1)) := by
  by_cases hxo : x = -1
  · subst hxo; exact neg_one_not_mem_realPages _
  induction ps generalizing i with
  | nil => simp at hfind
  | cons a l ih =>
    rw [List.findIdx?_cons] at hfind
    by_cases hax : a == x
    · rw [if_pos hax] at hfind
      have hi : i = 0 := by simpa using hfind.symm
      subst hi
      have hxa : a = x := by simpa using hax
      have hao : a ≠ -1 := by rw [hxa]; exact hxo
      show x ∉ realPages (-1 :: l)
      have hstep : realPages (-1 :: l) = realPages l := by
        simp [realPages, List.filter_cons]
      rw [hstep, ← hxa]
      have hcons : realPages (a :: l) = a :: realPages l := by
        simp [realPages, List.filter_cons, hao]
      rw [hcons] at hnd
      exact (List.nodup_cons.mp hnd).1
    · rw [if_neg (by simpa using hax)] at hfind
      rw [List.findIdx?_succ] at hfind
      obtain ⟨j, hj, hij⟩ := Option.map_eq_some'.mp hfind
      subst hij
      show x ∉ realPages (a :: l.set j (-1))
      intro hmem
      by_cases hao : a = -1
      · rw [show realPages (a :: l.set j (-1)) = realPages (l.set j (-1)) by
            simp [realPages, List.filter_cons, hao]] at hmem
        exact ih (nodup_realPages_cons_elim hnd) hj hmem
      · rw [show realPages (a :: l.set j (-1)) = a :: realPages (l.set j (-1)) by
            simp [realPages, List.filter_cons, hao]] at hmem
        rcases List.mem_cons.mp hmem with h1 | h1
        · exact absurd h1.symm (by simpa using hax)
        · exact ih (nodup_realPages_cons_elim hnd) hj h1

/-! ### Partition operation specifications -/

theorem frame_findIdx?_eq (p : List Frame) (pg : Int) :
    p.findIdx? (fun f => f.page == pg) = (pagesOf p).findIdx? (fun y => y == pg) := by
  rw [pagesOf, List.findIdx?_map]
  rfl

theorem hasPage_iff (p : List Frame) (pg : Int) :
    hasPage p pg = true ↔ pg ∈ pagesOf p := by
  unfold hasPage pagesOf
  rw [List.any_eq_true]
  constructor
  · rintro ⟨f, hf, hfp⟩
    exact List.mem_map.mpr ⟨f, hf, by simpa using hfp⟩
  · intro hm
    obtain ⟨f, hf, hfp⟩ := List.mem_map.mp hm
    exact ⟨f, hf, by simp [hfp]⟩

theorem hasSpace_iff (p : List Frame) :
    hasSpace p = true ↔ (-1 : Int) ∈ pagesOf p := by
  unfold hasSpace pagesOf
  rw [List.any_eq_true]
  constructor
  · rintro ⟨f, hf, hfp⟩
    exact List.mem_map.mpr ⟨f, hf, by simpa using hfp⟩
  · intro hm
    obtain ⟨f, hf, hfp⟩ := List.mem_map.mp hm
    exact ⟨f, hf, by simp [hfp]⟩

theorem updateAt_length (l : List Frame) (i : Nat) (g : Frame → Frame) :
    (updateAt l i g).length = l.length := by
  unfold updateAt
  cases l[i]? <;> simp

theorem updateLRU_pages (p : List Frame) (pg : Int) (ticks : Nat) :
    pagesOf (updateLRU p pg ticks).1 = pagesOf p := by
  unfold updateLRU
  cases h : p.findIdx? (fun f => f.page == pg) with
  | none => rfl
  | some i =>
    dsimp only
    exact pagesOf_updateAt_meta _ _ _ (fun f => rfl)

theorem removeFromPartition_spec (p : List Frame) (pg : Int) (now : Nat) :
    (pagesOf (removeFromPartition p pg now) = pagesOf p ∧
      (pagesOf p).findIdx? (fun y => y == pg) = none) ∨
    ∃ i, (pagesOf p).findIdx? (fun y => y == pg) = some i ∧
      pagesOf (removeFromPartition p pg now) = (pagesOf p).set i (-1) := by
  unfold removeFromPartition
  rw [frame_findIdx?_eq]
  cases h : (pagesOf p).findIdx? (fun y => y == pg) with
  | none => exact Or.inl ⟨rfl, rfl⟩
  | some i =>
    dsimp only
    right
    refine ⟨i, rfl, ?_⟩
    have hi : i < p.length := by
      have := (List.findIdx?_eq_some_iff_getElem.mp h).1
      rw [pagesOf_length] at this
      exact this
    exact pagesOf_updateAt_of_getElem? _ _ _ _ (List.getElem?_eq_getElem hi)

theorem insertIntoPartition_spec (p : List Frame) (pg : Int) (tk : Nat) :
    (hasSpace p = false ∧ pagesOf (insertIntoPartition p pg tk).1 = pagesOf p) ∨
    ∃ i < p.length, pagesOf (insertIntoPartition p pg tk).1 = (pagesOf p).set i pg := by
  unfold insertIntoPartition
  cases h : emptyIdx? p with
  | none =>
    left
    refine ⟨?_, rfl⟩
    rw [emptyIdx?, List.findIdx?_eq_none_iff] at h
    rw [← Bool.not_eq_true, hasSpace_iff]
    intro hm
    obtain ⟨f, hf, hpf⟩ := List.mem_map.mp hm
    have := h f hf
    simp [hpf] at this
  | some i =>
    dsimp only
    right
    obtain ⟨hlt, -, -⟩ := List.findIdx?_eq_some_iff_getElem.mp h
    exact ⟨i, hlt, pagesOf_updateAt_of_getElem? _ _ _ _ (List.getElem?_eq_getElem hlt)⟩

theorem demoteLRU_spec (p : List Frame) (now : Nat) :
    (p = [] ∧ pagesOf (demoteLRU p now).1 = pagesOf p ∧ (demoteLRU p now).2 = -1) ∨
    ∃ i < p.length, ∃ vf : Frame, p[i]? = some vf ∧
      pagesOf (demoteLRU p now).1 = (pagesOf p).set i (-1) ∧
      (demoteLRU p now).2 = vf.page := by
  unfold demoteLRU
  dsimp only
  cases htb : p[cppMinIdx (fun a b => a.lastUsed < b.lastUsed) p]? with
  | none =>
    dsimp only
    have hnil : p = [] := by
      by_contra hne
      have := cppMinIdx_lt (fun a b => a.lastUsed < b.lastUsed) p hne
      rw [List.getElem?_eq_none_iff] at htb
      omega
    exact Or.inl ⟨hnil, rfl, rfl⟩
  | some vf =>
    dsimp only
    right
    exact ⟨_, (List.getElem?_eq_some_iff.mp htb).1, vf, htb, pagesOf_set _ _ _, rfl⟩

theorem evictLFU_spec (p : List Frame) (now : Nat) :
    (p = [] ∧ pagesOf (evictLFU p now).1 = pagesOf p) ∨
    ∃ i < p.length, pagesOf (evictLFU p now).1 = (pagesOf p).set i (-1) := by
  unfold evictLFU
  dsimp only
  cases htb : p[cppMinIdx lfuLt p]? with
  | none =>
    dsimp only
    have hnil : p = [] := by
      by_contra hne
      have := cppMinIdx_lt lfuLt p hne
      rw [List.getElem?_eq_none_iff] at htb
      omega
    exact Or.inl ⟨hnil, rfl⟩
  | some vf =>
    dsimp only
    right
    exact ⟨_, (List.getElem?_eq_some_iff.mp htb).1, pagesOf_set _ _ _⟩


theorem mem_pagesOf_of_hitIdx?_some {l : List Frame} {r : Int} {i : Nat}
    (h : hitIdx? l r = some i) : r ∈ pagesOf l := by
  rw [hitIdx?] at h
  obtain ⟨hlt, hp, -⟩ := List.findIdx?_eq_some_iff_getElem.mp h
  have hpr : l[i].page = r := by simpa using hp
  exact List.mem_map.mpr ⟨l[i], List.getElem_mem hlt, hpr⟩

theorem not_mem_pagesOf_of_hitIdx?_none {l : List Frame} {r : Int}
    (h : hitIdx? l r = none) : r ∉ pagesOf l := by
  rw [hitIdx?, List.findIdx?_eq_none_iff] at h
  intro hr
  obtain ⟨f, hf, hpf⟩ := List.mem_map.mp hr
  have := h f hf
  simp [hpf] at this

theorem pagesOf_map_meta (l : List Frame) (g : Frame → Frame)
    (hg : ∀ f, (g f).page = f.page) : pagesOf (l.map g) = pagesOf l := by
  simp [pagesOf, List.map_map, Function.comp_def, hg]

/-! ### Residency shape of every non-LFRU policy step

On a hit the page list is unchanged (and the requested page is resident);
on a fault the requested page was not resident and is written into one
slot — except on the degenerate empty table, where nothing changes. -/

def TableShape (ps : List Int) (r : Int) (out : List Int) (fault : Bool) : Prop :=
  (fault = false ∧ out = ps ∧ r ∈ ps) ∨
  (fault = true ∧ r ∉ ps ∧ ((ps = [] ∧ out = ps) ∨ ∃ i < ps.length, out = ps.set i r))

theorem optimalStep_shape (refs : List Int) (s : SimState) (r : Int) (t : Nat) :
    TableShape (pagesOf s.table) r (pagesOf (optimalStep refs s r t).1.table)
      (optimalStep refs s r t).2 := by
  unfold optimalStep
  cases hhit : hitIdx? s.table r with
  | some i =>
    dsimp only
    exact Or.inl ⟨rfl, pagesOf_updateAt_meta _ _ _ (fun f => rfl),
      mem_pagesOf_of_hitIdx?_some hhit⟩
  | none =>
    have hr : r ∉ pagesOf s.table := not_mem_pagesOf_of_hitIdx?_none hhit
    cases hemp : emptyIdx? s.table with
    | some i =>
      dsimp only
      obtain ⟨hlt, -, -⟩ := List.findIdx?_eq_some_iff_getElem.mp hemp
      refine Or.inr ⟨rfl, hr, Or.inr ⟨i, ?_, ?_⟩⟩
      · rw [pagesOf_length]; exact hlt
      · exact pagesOf_updateAt_of_getElem? _ _ _ _ (List.getElem?_eq_getElem hlt)
    | none =>
      dsimp only
      cases htb : s.table[optVictim (fun f => nextUseAbs refs (t + 1) f.page) s.table]? with
      | some vf =>
        dsimp only
        have hlt := (List.getElem?_eq_some_iff.mp htb).1
        refine Or.inr ⟨rfl, hr, Or.inr ⟨_, ?_, pagesOf_set _ _ _⟩⟩
        rw [pagesOf_length]; exact hlt
      | none =>
        dsimp only
        have hnil : s.table = [] := by
          by_contra hne
          have := optVictim_lt (fun f => nextUseAbs refs (t + 1) f.page) s.table hne
          rw [List.getElem?_eq_none_iff] at htb
          omega
        refine Or.inr ⟨rfl, hr, Or.inl ⟨by simp [hnil, pagesOf], rfl⟩⟩

theorem randomStep_shape (s : SimState) (r : Int) (t : Nat) (rv : Nat) :
    TableShape (pagesOf s.table) r (pagesOf (randomStep s r t rv).1.table)
      (randomStep s r t rv).2 := by
  unfold randomStep
  cases hhit : hitIdx? s.table r with
  | some i =>
    dsimp only
    exact Or.inl ⟨rfl, pagesOf_updateAt_meta _ _ _ (fun f => rfl),
      mem_pagesOf_of_hitIdx?_some hhit⟩
  | none =>
    have hr : r ∉ pagesOf s.table := not_mem_pagesOf_of_hitIdx?_none hhit
    cases hemp : emptyIdx? s.table with
    | some i =>
      dsimp only
      obtain ⟨hlt, -, -⟩ := List.findIdx?_eq_some_iff_getElem.mp hemp
      refine Or.inr ⟨rfl, hr, Or.inr ⟨i, ?_, ?_⟩⟩
      · rw [pagesOf_length]; exact hlt
      · exact pagesOf_updateAt_of_getElem? _ _ _ _ (List.getElem?_eq_getElem hlt)
    | none =>
      dsimp only
      cases htb : s.table[rv % s.table.length]? with
      | some vf =>
        dsimp only
        have hlt := (List.getElem?_eq_some_iff.mp htb).1
        refine Or.inr ⟨rfl, hr, Or.inr ⟨_, ?_, pagesOf_set _ _ _⟩⟩
        rw [pagesOf_length]; exact hlt
      | none =>
        dsimp only
        have hnil : s.table = [] := by
          rw [List.getElem?_eq_none_iff] at htb
          rcases Nat.eq_zero_or_pos s.table.length with h0 | h0
          · exact List.length_eq_zero.mp h0
          · exact absurd htb (by have := Nat.mod_lt rv h0; omega)
        refine Or.inr ⟨rfl, hr, Or.inl ⟨by simp [hnil, pagesOf], rfl⟩⟩

theorem fifoStep_shape (s : SimState) (r : Int) (t : Nat) :
    TableShape (pagesOf s.table) r (pagesOf (fifoStep s r t).1.table) (fifoStep s r t).2 := by
  unfold fifoStep
  cases hhit : hitIdx? s.table r with
  | some i =>
    dsimp only
    exact Or.inl ⟨rfl, rfl, mem_pagesOf_of_hitIdx?_some hhit⟩
  | none =>
    have hr : r ∉ pagesOf s.table := not_mem_pagesOf_of_hitIdx?_none hhit
    cases hemp : emptyIdx? s.table with
    | some i =>
      dsimp only
      obtain ⟨hlt, -, -⟩ := List.findIdx?_eq_some_iff_getElem.mp hemp
      refine Or.inr ⟨rfl, hr, Or.inr ⟨i, ?_, ?_⟩⟩
      · rw [pagesOf_length]; exact hlt
      · exact pagesOf_updateAt_of_getElem? _ _ _ _ (List.getElem?_eq_getElem hlt)
    | none =>
      dsimp only
      cases htb : s.table[cppMinIdx (fun a b => a.extra < b.extra) s.table]? with
      | some vf =>
        dsimp only
        have hlt := (List.getElem?_eq_some_iff.mp htb).1
        refine Or.inr ⟨rfl, hr, Or.inr ⟨_, ?_, pagesOf_set _ _ _⟩⟩
        rw [pagesOf_length]; exact hlt
      | none =>
        dsimp only
        have hnil : s.table = [] := by
          by_contra hne
          have := cppMinIdx_lt (fun a b => a.extra < b.extra) s.table hne
          rw [List.getElem?_eq_none_iff] at htb
          omega
        refine Or.inr ⟨rfl, hr, Or.inl ⟨by simp [hnil, pagesOf], rfl⟩⟩

theorem lruStep_shape (s : SimState) (r : Int) (t : Nat) :
    TableShape (pagesOf s.table) r (pagesOf (lruStep s r t).1.table) (lruStep s r t).2 := by
  unfold lruStep
  cases hhit : hitIdx? s.table r with
  | some i =>
    dsimp only
    exact Or.inl ⟨rfl, pagesOf_updateAt_meta _ _ _ (fun f => rfl),
      mem_pagesOf_of_hitIdx?_some hhit⟩
  | none =>
    have hr : r ∉ pagesOf s.table := not_mem_pagesOf_of_hitIdx?_none hhit
    cases hemp : emptyIdx? s.table with
    | some i =>
      dsimp only
      obtain ⟨hlt, -, -⟩ := List.findIdx?_eq_some_iff_getElem.mp hemp
      exact Or.inr ⟨rfl, hr, Or.inr ⟨i, by rw [pagesOf_length]; exact hlt,
        pagesOf_updateAt_of_getElem? _ _ _ _ (List.getElem?_eq_getElem hlt)⟩⟩
    | none =>
      dsimp only
      cases htb : s.table[cppMinIdx (fun a b => a.time < b.time) s.table]? with
      | some vf =>
        dsimp only
        have hlt := (List.getElem?_eq_some_iff.mp htb).1
        exact Or.inr ⟨rfl, hr, Or.inr ⟨_, by rw [pagesOf_length]; exact hlt, pagesOf_set _ _ _⟩⟩
      | none =>
        dsimp only
        have hnil : s.table = [] := by
          by_contra hne
          have := cppMinIdx_lt (fun a b => a.time < b.time) s.table hne
          rw [List.getElem?_eq_none_iff] at htb
          omega
        exact Or.inr ⟨rfl, hr, Or.inl ⟨by simp [hnil, pagesOf], rfl⟩⟩

theorem nruStep_shape (s : SimState) (r : Int) (t : Nat) :
    TableShape (pagesOf s.table) r (pagesOf (nruStep s r t).1.table) (nruStep s r t).2 := by
  unfold nruStep
  cases hhit : hitIdx? s.table r with
  | some i =>
    dsimp only
    exact Or.inl ⟨rfl, pagesOf_updateAt_meta _ _ _ (fun f => rfl),
      mem_pagesOf_of_hitIdx?_some hhit⟩
  | none =>
    have hr : r ∉ pagesOf s.table := not_mem_pagesOf_of_hitIdx?_none hhit
    cases hemp : emptyIdx? s.table with
    | some i =>
      dsimp only
      obtain ⟨hlt, -, -⟩ := List.findIdx?_eq_some_iff_getElem.mp hemp
      exact Or.inr ⟨rfl, hr, Or.inr ⟨i, by rw [pagesOf_length]; exact hlt,
        pagesOf_updateAt_of_getElem? _ _ _ _ (List.getElem?_eq_getElem hlt)⟩⟩
    | none =>
      dsimp only
      cases htb : s.table[cppMinIdx (fun a b => a.time < b.time) s.table]? with
      | some vf =>
        dsimp only
        have hlt := (List.getElem?_eq_some_iff.mp htb).1
        exact Or.inr ⟨rfl, hr, Or.inr ⟨_, by rw [pagesOf_length]; exact hlt, pagesOf_set _ _ _⟩⟩
      | none =>
        dsimp only
        have hnil : s.table = [] := by
          by_contra hne
          have := cppMinIdx_lt (fun a b => a.time < b.time) s.table hne
          rw [List.getElem?_eq_none_iff] at htb
          omega
        exact Or.inr ⟨rfl, hr, Or.inl ⟨by simp [hnil, pagesOf], rfl⟩⟩

theorem nfuStep_shape (s : SimState) (r : Int) (t : Nat) :
    TableShape (pagesOf s.table) r (pagesOf (nfuStep s r t).1.table) (nfuStep s r t).2 := by
  unfold nfuStep
  cases hhit : hitIdx? s.table r with
  | some i =>
    dsimp only
    exact Or.inl ⟨rfl, pagesOf_updateAt_meta _ _ _ (fun f => rfl),
      mem_pagesOf_of_hitIdx?_some hhit⟩
  | none =>
    have hr : r ∉ pagesOf s.table := not_mem_pagesOf_of_hitIdx?_none hhit
    cases hemp : emptyIdx? s.table with
    | some i =>
      dsimp only
      obtain ⟨hlt, -, -⟩ := List.findIdx?_eq_some_iff_getElem.mp hemp
      exact Or.inr ⟨rfl, hr, Or.inr ⟨i, by rw [pagesOf_length]; exact hlt,
        pagesOf_updateAt_of_getElem? _ _ _ _ (List.getElem?_eq_getElem hlt)⟩⟩
    | none =>
      dsimp only
      cases htb : s.table[cppMinIdx (fun a b => a.extra < b.extra) s.table]? with
      | some vf =>
        dsimp only
        have hlt := (List.getElem?_eq_some_iff.mp htb).1
        exact Or.inr ⟨rfl, hr, Or.inr ⟨_, by rw [pagesOf_length]; exact hlt, pagesOf_set _ _ _⟩⟩
      | none =>
        dsimp only
        have hnil : s.table = [] := by
          by_contra hne
          have := cppMinIdx_lt (fun a b => a.extra < b.extra) s.table hne
          rw [List.getElem?_eq_none_iff] at htb
          omega
        exact Or.inr ⟨rfl, hr, Or.inl ⟨by simp [hnil, pagesOf], rfl⟩⟩

theorem mruStep_shape (s : SimState) (r : Int) (t : Nat) :
    TableShape (pagesOf s.table) r (pagesOf (mruStep s r t).1.table) (mruStep s r t).2 := by
  unfold mruStep
  cases hhit : hitIdx? s.table r with
  | some i =>
    dsimp only
    exact Or.inl ⟨rfl, pagesOf_updateAt_meta _ _ _ (fun f => rfl),
      mem_pagesOf_of_hitIdx?_some hhit⟩
  | none =>
    have hr : r ∉ pagesOf s.table := not_mem_pagesOf_of_hitIdx?_none hhit
    cases hemp : emptyIdx? s.table with
    | some i =>
      dsimp only
      obtain ⟨hlt, -, -⟩ := List.findIdx?_eq_some_iff_getElem.mp hemp
      exact Or.inr ⟨rfl, hr, Or.inr ⟨i, by rw [pagesOf_length]; exact hlt,
        pagesOf_updateAt_of_getElem? _ _ _ _ (List.getElem?_eq_getElem hlt)⟩⟩
    | none =>
      dsimp only
      cases htb : s.table[cppMaxIdx (fun a b => a.time < b.time) s.table]? with
      | some vf =>
        dsimp only
        have hlt := (List.getElem?_eq_some_iff.mp htb).1
        exact Or.inr ⟨rfl, hr, Or.inr ⟨_, by rw [pagesOf_length]; exact hlt, pagesOf_set _ _ _⟩⟩
      | none =>
        dsimp only
        have hnil : s.table = [] := by
          by_contra hne
          have := cppMaxIdx_lt (fun a b => a.time < b.time) s.table hne
          rw [List.getElem?_eq_none_iff] at htb
          omega
        exact Or.inr ⟨rfl, hr, Or.inl ⟨by simp [hnil, pagesOf], rfl⟩⟩

theorem mfuStep_shape (s : SimState) (r : Int) :
    TableShape (pagesOf s.table) r (pagesOf (mfuStep s r).1.table) (mfuStep s r).2 := by
  unfold mfuStep
  cases hhit : hitIdx? s.table r with
  | some i =>
    dsimp only
    exact Or.inl ⟨rfl, pagesOf_updateAt_meta _ _ _ (fun f => rfl),
      mem_pagesOf_of_hitIdx?_some hhit⟩
  | none =>
    have hr : r ∉ pagesOf s.table := not_mem_pagesOf_of_hitIdx?_none hhit
    cases hemp : emptyIdx? s.table with
    | some i =>
      dsimp only
      obtain ⟨hlt, -, -⟩ := List.findIdx?_eq_some_iff_getElem.mp hemp
      exact Or.inr ⟨rfl, hr, Or.inr ⟨i, by rw [pagesOf_length]; exact hlt,
        pagesOf_updateAt_of_getElem? _ _ _ _ (List.getElem?_eq_getElem hlt)⟩⟩
    | none =>
      dsimp only
      cases htb : s.table[cppMaxIdx (fun a b => a.extra < b.extra) s.table]? with
      | some vf =>
        dsimp only
        have hlt := (List.getElem?_eq_some_iff.mp htb).1
        exact Or.inr ⟨rfl, hr, Or.inr ⟨_, by rw [pagesOf_length]; exact hlt, pagesOf_set _ _ _⟩⟩
      | none =>
        dsimp only
        have hnil : s.table = [] := by
          by_contra hne
          have := cppMaxIdx_lt (fun a b => a.extra < b.extra) s.table hne
          rw [List.getElem?_eq_none_iff] at htb
          omega
        exact Or.inr ⟨rfl, hr, Or.inl ⟨by simp [hnil, pagesOf], rfl⟩⟩

theorem lfuStep_shape (s : SimState) (r : Int) :
    TableShape (pagesOf s.table) r (pagesOf (lfuStep s r).1.table) (lfuStep s r).2 := by
  unfold lfuStep
  cases hhit : hitIdx? s.table r with
  | some i =>
    dsimp only
    exact Or.inl ⟨rfl, pagesOf_updateAt_meta _ _ _ (fun f => rfl),
      mem_pagesOf_of_hitIdx?_some hhit⟩
  | none =>
    have hr : r ∉ pagesOf s.table := not_mem_pagesOf_of_hitIdx?_none hhit
    cases hemp : emptyIdx? s.table with
    | some i =>
      dsimp only
      obtain ⟨hlt, -, -⟩ := List.findIdx?_eq_some_iff_getElem.mp hemp
      exact Or.inr ⟨rfl, hr, Or.inr ⟨i, by rw [pagesOf_length]; exact hlt,
        pagesOf_updateAt_of_getElem? _ _ _ _ (List.getElem?_eq_getElem hlt)⟩⟩
    | none =>
      dsimp only
      cases htb : s.table[cppMinIdx lfuLt s.table]? with
      | some vf =>
        dsimp only
        have hlt := (List.getElem?_eq_some_iff.mp htb).1
        exact Or.inr ⟨rfl, hr, Or.inr ⟨_, by rw [pagesOf_length]; exact hlt, pagesOf_set _ _ _⟩⟩
      | none =>
        dsimp only
        have hnil : s.table = [] := by
          by_contra hne
          have := cppMinIdx_lt lfuLt s.table hne
          rw [List.getElem?_eq_none_iff] at htb
          omega
        exact Or.inr ⟨rfl, hr, Or.inl ⟨by simp [hnil, pagesOf], rfl⟩⟩

theorem clockStep_shape (s : SimState) (r : Int) :
    TableShape (pagesOf s.table) r (pagesOf (clockStep s r).1.table) (clockStep s r).2 := by
  unfold clockStep
  cases hhit : hitIdx? s.table r with
  | some i =>
    dsimp only
    exact Or.inl ⟨rfl, pagesOf_updateAt_meta _ _ _ (fun f => rfl),
      mem_pagesOf_of_hitIdx?_some hhit⟩
  | none =>
    have hr : r ∉ pagesOf s.table := not_mem_pagesOf_of_hitIdx?_none hhit
    cases hemp : emptyIdx? s.table with
    | some i =>
      dsimp only
      obtain ⟨hlt, -, -⟩ := List.findIdx?_eq_some_iff_getElem.mp hemp
      exact Or.inr ⟨rfl, hr, Or.inr ⟨i, by rw [pagesOf_length]; exact hlt,
        pagesOf_updateAt_of_getElem? _ _ _ _ (List.getElem?_eq_getElem hlt)⟩⟩
    | none =>
      dsimp only
      set h0 := if s.hand ≥ s.table.length then 0 else s.hand with hh0
      set scanned := clockScan s.table.length s.table.length s.table h0 with hscan
      have hpg : pagesOf scanned.1 = pagesOf s.table := clockScan_pages _ _ _ _
      have hlen : scanned.1.length = s.table.length := clockScan_length _ _ _ _
      cases hres : scanned.2.1 with
      | some v =>
        dsimp only
        have hv : v < s.table.length := clockScan_some_lt _ _ _ _ _ hres
        cases htb : scanned.1[v]? with
        | some vf =>
          dsimp only
          refine Or.inr ⟨rfl, hr, Or.inr ⟨v, by rw [pagesOf_length]; exact hv, ?_⟩⟩
          rw [pagesOf_set, hpg]
        | none =>
          exfalso
          rw [List.getElem?_eq_none_iff] at htb
          omega
      | none =>
        dsimp only
        cases htb : scanned.1[h0]? with
        | some vf =>
          dsimp only
          have hlt := (List.getElem?_eq_some_iff.mp htb).1
          refine Or.inr ⟨rfl, hr, Or.inr ⟨h0, by rw [pagesOf_length]; omega, ?_⟩⟩
          rw [pagesOf_set, hpg]
        | none =>
          dsimp only
          have hlen0 : s.table.length = 0 := by
            rw [List.getElem?_eq_none_iff] at htb
            rw [hlen] at htb
            rw [hh0] at htb
            split at htb <;> omega
          refine Or.inr ⟨rfl, hr, Or.inl ⟨?_, hpg⟩⟩
          simp [List.length_eq_zero.mp hlen0, pagesOf]

theorem agingStep_shape (s : SimState) (r : Int) (t : Nat) :
    TableShape (pagesOf s.table) r (pagesOf (agingStep s r t).1.table) (agingStep s r t).2 := by
  unfold agingStep
  dsimp only
  set aged := s.table.map (fun f => if f.page != -1 then { f with extra := f.extra / 2 } else f)
    with haged
  have hpg : pagesOf aged = pagesOf s.table := by
    rw [haged]
    apply pagesOf_map_meta
    intro f
    split <;> rfl
  have hlen : aged.length = s.table.length := by rw [haged]; simp
  cases hhit : hitIdx? aged r with
  | some i =>
    dsimp only
    refine Or.inl ⟨rfl, ?_, ?_⟩
    · refine Eq.trans (pagesOf_updateAt_meta _ _ _ ?_) hpg
      intro f
      rfl
    · rw [← hpg]; exact mem_pagesOf_of_hitIdx?_some hhit
  | none =>
    have hr : r ∉ pagesOf s.table := by
      rw [← hpg]; exact not_mem_pagesOf_of_hitIdx?_none hhit
    cases hemp : emptyIdx? aged with
    | some i =>
      dsimp only
      obtain ⟨hlt, -, -⟩ := List.findIdx?_eq_some_iff_getElem.mp hemp
      refine Or.inr ⟨rfl, hr, Or.inr ⟨i, by rw [pagesOf_length]; omega, ?_⟩⟩
      rw [pagesOf_updateAt_of_getElem? _ _ _ _ (List.getElem?_eq_getElem hlt), hpg]
    | none =>
      dsimp only
      cases htb : aged[cppMinIdx (fun a b => a.extra < b.extra) aged]? with
      | some vf =>
        dsimp only
        have hlt := (List.getElem?_eq_some_iff.mp htb).1
        refine Or.inr ⟨rfl, hr,
          Or.inr ⟨cppMinIdx (fun a b => a.extra < b.extra) aged, by rw [pagesOf_length]; omega, ?_⟩⟩
        rw [pagesOf_set, hpg]
      | none =>
        dsimp only
        have hnil : aged = [] := by
          by_contra hne
          have := cppMinIdx_lt (fun a b => a.extra < b.extra) aged hne
          rw [List.getElem?_eq_none_iff] at htb
          omega
        refine Or.inr ⟨rfl, hr, Or.inl ⟨?_, hpg⟩⟩
        rw [← hpg]
        simp [hnil, pagesOf]

/-! ### LFRU: combined residency specification -/

theorem length_eq_of_pagesOf_eq {p q : List Frame} (h : pagesOf q = pagesOf p) :
    q.length = p.length := by
  rw [← pagesOf_length q, ← pagesOf_length p, h]

theorem length_eq_of_pagesOf_set {p q : List Frame} {i : Nat} {x : Int}
    (h : pagesOf q = (pagesOf p).set i x) : q.length = p.length := by
  rw [← pagesOf_length q, ← pagesOf_length p, h, List.length_set]

theorem hasSpace_eq_false_iff (p : List Frame) :
    hasSpace p = false ↔ ∀ f ∈ p, f.page ≠ -1 := by
  rw [← Bool.not_eq_true, hasSpace_iff]
  constructor
  · intro h f hf hpf
    exact h (List.mem_map.mpr ⟨f, hf, hpf⟩)
  · intro h hm
    obtain ⟨f, hf, hpf⟩ := List.mem_map.mp hm
    exact h f hf hpf

theorem not_mem_realPages_set_self {ps : List Int} :
    ∀ {v : Nat} {d : Int}, (realPages ps).Nodup → ps[v]? = some d → d ≠ -1 →
      d ∉ realPages (ps.set v (-1)) := by
  induction ps with
  | nil => intro v d _ hv _; simp at hv
  | cons a l ih =>
    intro v d hnd hv hd
    cases v with
    | zero =>
      have ha : a = d := by simpa using hv
      have hao : a ≠ -1 := by rw [ha]; exact hd
      show d ∉ realPages (-1 :: l)
      rw [show realPages (-1 :: l) = realPages l by simp [realPages, List.filter_cons]]
      rw [show realPages (a :: l) = a :: realPages l by
        simp [realPages, List.filter_cons, hao]] at hnd
      rw [← ha]
      exact (List.nodup_cons.mp hnd).1
    | succ v =>
      have hv' : l[v]? = some d := by simpa using hv
      show d ∉ realPages (a :: l.set v (-1))
      by_cases hao : a = -1
      · rw [show realPages (a :: l.set v (-1)) = realPages (l.set v (-1)) by
          simp [realPages, List.filter_cons, hao]]
        exact ih (nodup_realPages_cons_elim hnd) hv' hd
      · rw [show realPages (a :: l.set v (-1)) = a :: realPages (l.set v (-1)) by
          simp [realPages, List.filter_cons, hao]]
        intro hmem
        rcases List.mem_cons.mp hmem with h1 | h1
        · rw [show realPages (a :: l) = a :: realPages l by
            simp [realPages, List.filter_cons, hao]] at hnd
          have hdl : d ∈ realPages l := by
            obtain ⟨hlt, hget⟩ := List.getElem?_eq_some_iff.mp hv'
            exact mem_realPages.mpr ⟨hget ▸ List.getElem_mem hlt, hd⟩
          rw [h1] at hdl
          exact (List.nodup_cons.mp hnd).1 hdl
        · exact ih (nodup_realPages_cons_elim hnd) hv' hd h1

theorem mem_realPages_mono_set_neg {ps : List Int} {i : Nat} {y : Int}
    (h : y ∈ realPages (ps.set i (-1))) : y ∈ realPages ps := by
  rcases mem_of_mem_realPages_set h with h1 | h1
  · exact absurd h1 (fun hh => (mem_realPages.mp h).2 hh)
  · exact h1

/-- Specification of the shared demotion sequence `demoteLRU` →
(optional `evictLFU`) → `insertIntoPartition` of the demoted page: it
preserves partition sizes and duplicate-freedom, loses pages but invents
none, and (for a nonempty privileged partition) frees a privileged slot. -/
theorem demoteInto_spec (priv unpriv : List Frame) (ticks now : Nat)
    (hnp : hasSpace priv = false)
    (hnd : (realPages (pagesOf priv ++ pagesOf unpriv)).Nodup) :
    (demoteInto priv unpriv ticks now).1.length = priv.length ∧
    (demoteInto priv unpriv ticks now).2.1.length = unpriv.length ∧
    (realPages (pagesOf (demoteInto priv unpriv ticks now).1 ++
        pagesOf (demoteInto priv unpriv ticks now).2.1)).Nodup ∧
    (∀ y ∈ realPages (pagesOf (demoteInto priv unpriv ticks now).1 ++
        pagesOf (demoteInto priv unpriv ticks now).2.1),
      y ∈ realPages (pagesOf priv ++ pagesOf unpriv)) ∧
    (priv ≠ [] → hasSpace (demoteInto priv unpriv ticks now).1 = true) := by
  rw [realPages_append] at hnd
  obtain ⟨hndP, hndU, hdisj⟩ := List.nodup_append.mp hnd
  unfold demoteInto
  dsimp only
  set u1 := if ¬hasSpace unpriv then (evictLFU unpriv now).1 else unpriv with hu1def
  have hu1core : pagesOf u1 = pagesOf unpriv ∨
      ∃ j, pagesOf u1 = (pagesOf unpriv).set j (-1) := by
    rw [hu1def]
    split
    · rcases evictLFU_spec unpriv now with ⟨-, hp⟩ | ⟨j, -, hp⟩
      · exact Or.inl hp
      · exact Or.inr ⟨j, hp⟩
    · exact Or.inl rfl
  have lenU1 : u1.length = unpriv.length := by
    rcases hu1core with hp | ⟨j, hp⟩
    · exact length_eq_of_pagesOf_eq hp
    · exact length_eq_of_pagesOf_set hp
  have subU1 : ∀ y ∈ realPages (pagesOf u1), y ∈ realPages (pagesOf unpriv) := by
    intro y hy
    rcases hu1core with hp | ⟨j, hp⟩
    · rwa [hp] at hy
    · rw [hp] at hy
      exact mem_realPages_mono_set_neg hy
  have hndU1 : (realPages (pagesOf u1)).Nodup := by
    rcases hu1core with hp | ⟨j, hp⟩
    · rwa [hp]
    · rw [hp]
      exact nodup_realPages_set hndU (neg_one_not_mem_realPages _)
  rcases demoteLRU_spec priv now with ⟨hnil, hpD, hdD⟩ | ⟨v, hv, vf, hvf, hpD, hdD⟩
  · -- degenerate: empty privileged partition, demoted "page" is -1
    have hPnil : pagesOf priv = [] := by rw [hnil]; rfl
    have insSub : ∀ y ∈ realPages (pagesOf (insertIntoPartition u1 (demoteLRU priv now).2 ticks).1),
        y ∈ realPages (pagesOf u1) := by
      intro y hy
      rcases insertIntoPartition_spec u1 (demoteLRU priv now).2 ticks with ⟨-, hp⟩ | ⟨k, -, hp⟩
      · rwa [hp] at hy
      · rw [hp, hdD] at hy
        exact mem_realPages_mono_set_neg hy
    have insNodup : (realPages (pagesOf (insertIntoPartition u1 (demoteLRU priv now).2 ticks).1)).Nodup := by
      rcases insertIntoPartition_spec u1 (demoteLRU priv now).2 ticks with ⟨-, hp⟩ | ⟨k, -, hp⟩
      · rwa [hp]
      · rw [hp, hdD]
        exact nodup_realPages_set hndU1 (neg_one_not_mem_realPages _)
    have insLen : (insertIntoPartition u1 (demoteLRU priv now).2 ticks).1.length = u1.length := by
      rcases insertIntoPartition_spec u1 (demoteLRU priv now).2 ticks with ⟨-, hp⟩ | ⟨k, -, hp⟩
      · exact length_eq_of_pagesOf_eq hp
      · exact length_eq_of_pagesOf_set hp
    refine ⟨length_eq_of_pagesOf_eq hpD, by rw [insLen, lenU1], ?_, ?_, ?_⟩
    · rw [realPages_append, List.nodup_append]
      refine ⟨?_, insNodup, ?_⟩
      · rw [hpD, hPnil]; exact List.nodup_nil
      · intro y hy
        rw [hpD, hPnil] at hy
        simp [realPages] at hy
    · intro y hy
      rw [realPages_append] at hy
      rcases List.mem_append.mp hy with hy | hy
      · rw [hpD, hPnil] at hy
        simp [realPages] at hy
      · rw [realPages_append]
        exact List.mem_append.mpr (Or.inr (subU1 y (insSub y hy)))
    · intro hne; exact absurd hnil hne
  · -- normal case: a real page vf.page is demoted
    have hreal : ∀ f ∈ priv, f.page ≠ -1 := (hasSpace_eq_false_iff priv).mp hnp
    obtain ⟨hvlt, hvget⟩ := List.getElem?_eq_some_iff.mp hvf
    have hvfmem : vf ∈ priv := hvget ▸ List.getElem_mem hvlt
    have hvfp : vf.page ≠ -1 := hreal vf hvfmem
    have hdP : vf.page ∈ realPages (pagesOf priv) :=
      mem_realPages.mpr ⟨List.mem_map.mpr ⟨vf, hvfmem, rfl⟩, hvfp⟩
    have hdnotU : vf.page ∉ realPages (pagesOf unpriv) := hdisj hdP
    have hdnotU1 : vf.page ∉ realPages (pagesOf u1) := fun h => hdnotU (subU1 _ h)
    have hvpage : (pagesOf priv)[v]? = some vf.page := by
      rw [pagesOf_getElem?, hvf]; rfl
    have hdnotP1 : vf.page ∉ realPages (pagesOf (demoteLRU priv now).1) := by
      rw [hpD]
      exact not_mem_realPages_set_self hndP hvpage hvfp
    have insSub : ∀ y ∈ realPages (pagesOf (insertIntoPartition u1 (demoteLRU priv now).2 ticks).1),
        y = vf.page ∨ y ∈ realPages (pagesOf u1) := by
      intro y hy
      rcases insertIntoPartition_spec u1 (demoteLRU priv now).2 ticks with ⟨-, hp⟩ | ⟨k, -, hp⟩
      · exact Or.inr (by rwa [hp] at hy)
      · rw [hp, hdD] at hy
        exact mem_of_mem_realPages_set hy
    have insNodup : (realPages (pagesOf (insertIntoPartition u1 (demoteLRU priv now).2 ticks).1)).Nodup := by
      rcases insertIntoPartition_spec u1 (demoteLRU priv now).2 ticks with ⟨-, hp⟩ | ⟨k, -, hp⟩
      · rwa [hp]
      · rw [hp, hdD]
        exact nodup_realPages_set hndU1 hdnotU1
    have insLen : (insertIntoPartition u1 (demoteLRU priv now).2 ticks).1.length = u1.length := by
      rcases insertIntoPartition_spec u1 (demoteLRU priv now).2 ticks with ⟨-, hp⟩ | ⟨k, -, hp⟩
      · exact length_eq_of_pagesOf_eq hp
      · exact length_eq_of_pagesOf_set hp
    have hndP1 : (realPages (pagesOf (demoteLRU priv now).1)).Nodup := by
      rw [hpD]
      exact nodup_realPages_set hndP (neg_one_not_mem_realPages _)
    have subP1 : ∀ y ∈ realPages (pagesOf (demoteLRU priv now).1), y ∈ realPages (pagesOf priv) := by
      intro y hy
      rw [hpD] at hy
      exact mem_realPages_mono_set_neg hy
    refine ⟨length_eq_of_pagesOf_set hpD, by rw [insLen, lenU1], ?_, ?_, ?_⟩
    · rw [realPages_append, List.nodup_append]
      refine ⟨hndP1, insNodup, ?_⟩
      intro y hyP hyI
      rcases insSub y hyI with h1 | h1
      · rw [h1] at hyP
        exact hdnotP1 hyP
      · exact hdisj (subP1 y hyP) (subU1 y h1)
    · intro y hy
      rw [realPages_append] at hy
      rw [realPages_append]
      rcases List.mem_append.mp hy with hy | hy
      · exact List.mem_append.mpr (Or.inl (subP1 y hy))
      · rcases insSub y hy with h1 | h1
        · exact List.mem_append.mpr (Or.inl (h1 ▸ hdP))
        · exact List.mem_append.mpr (Or.inr (subU1 y h1))
    · intro hne
      rw [hasSpace_iff, hpD]
      apply List.mem_set
      rw [pagesOf_length]
      exact hv

/-- The common tail of the promotion branch and of `handlePageInsertion`:
make room in `priv` by demotion when it is full, then insert `r` there.
Proof device only — `handlePageInsertion_eq_promoteInsert` identifies it
with the source's `handlePageInsertion`, and the promotion branch of
`lfru` is literally this term. -/
def promoteInsert (priv u : List Frame) (r : Int) (tk now : Nat) :
    List Frame × List Frame × Nat :=
  let step2 := if ¬hasSpace priv then demoteInto priv u tk now else (priv, u, tk)
  let ins := insertIntoPartition step2.1 r step2.2.2
  (ins.1, step2.2.1, ins.2)

theorem handlePageInsertion_eq_promoteInsert (priv u : List Frame) (pg : Int) (tk now : Nat) :
    handlePageInsertion priv u pg tk now = promoteInsert priv u pg tk now := by
  unfold handlePageInsertion promoteInsert
  by_cases h : hasSpace priv = true
  · rw [if_pos h, if_neg (by simp [h])]
  · rw [if_neg h, if_pos (by simpa using h)]

theorem promoteInsert_spec (priv u : List Frame) (r : Int) (tk now : Nat)
    (hnd : (realPages (pagesOf priv ++ pagesOf u)).Nodup)
    (hrP : r ∉ pagesOf priv)
    (hrU : r ∉ realPages (pagesOf u)) :
    (realPages (pagesOf (promoteInsert priv u r tk now).1 ++
        pagesOf (promoteInsert priv u r tk now).2.1)).Nodup ∧
    (promoteInsert priv u r tk now).1.length = priv.length ∧
    (promoteInsert priv u r tk now).2.1.length = u.length ∧
    (∀ y ∈ realPages (pagesOf (promoteInsert priv u r tk now).1 ++
        pagesOf (promoteInsert priv u r tk now).2.1),
      y = r ∨ y ∈ realPages (pagesOf priv ++ pagesOf u)) ∧
    (priv ≠ [] → r ≠ -1 →
      r ∈ realPages (pagesOf (promoteInsert priv u r tk now).1 ++
        pagesOf (promoteInsert priv u r tk now).2.1)) := by
  have hrPreal : r ∉ realPages (pagesOf priv) := fun h => hrP (mem_realPages.mp h).1
  by_cases hSp : hasSpace priv = true
  · -- free slot in priv: no demotion
    unfold promoteInsert
    rw [if_neg (by simp [hSp])]
    dsimp only
    rw [realPages_append] at hnd
    obtain ⟨hndP, hndU, hdisj⟩ := List.nodup_append.mp hnd
    rcases insertIntoPartition_spec priv r tk with ⟨hno, -⟩ | ⟨k, hk, hp⟩
    · rw [hno] at hSp; exact absurd hSp (by simp)
    · have hndIns : (realPages (pagesOf (insertIntoPartition priv r tk).1)).Nodup := by
        rw [hp]; exact nodup_realPages_set hndP hrPreal
      have subIns : ∀ y ∈ realPages (pagesOf (insertIntoPartition priv r tk).1),
          y = r ∨ y ∈ realPages (pagesOf priv) := by
        intro y hy; rw [hp] at hy; exact mem_of_mem_realPages_set hy
      refine ⟨?_, length_eq_of_pagesOf_set hp, rfl, ?_, ?_⟩
      · rw [realPages_append, List.nodup_append]
        refine ⟨hndIns, hndU, ?_⟩
        intro y hyI hyU
        rcases subIns y hyI with h1 | h1
        · rw [h1] at hyU; exact hrU hyU
        · exact hdisj h1 hyU
      · intro y hy
        rw [realPages_append] at hy
        rw [realPages_append]
        rcases List.mem_append.mp hy with hy | hy
        · rcases subIns y hy with h1 | h1
          · exact Or.inl h1
          · exact Or.inr (List.mem_append.mpr (Or.inl h1))
        · exact Or.inr (List.mem_append.mpr (Or.inr hy))
      · intro hne hr1
        rw [realPages_append]
        refine List.mem_append.mpr (Or.inl (mem_realPages.mpr ⟨?_, hr1⟩))
        rw [hp]
        apply List.mem_set
        rw [pagesOf_length]
        exact hk
  · -- priv full: demote, then insert
    have hSp' : hasSpace priv = false := by simpa using hSp
    unfold promoteInsert
    rw [if_pos (by simp [hSp'])]
    dsimp only
    obtain ⟨dmLenP, dmLenU, dmNodup, dmSub, dmSpace⟩ := demoteInto_spec priv u tk now hSp' hnd
    have hrdm : r ∉ realPages (pagesOf (demoteInto priv u tk now).1 ++
        pagesOf (demoteInto priv u tk now).2.1) := by
      intro h
      have h2 := dmSub r h
      rw [realPages_append] at h2
      rcases List.mem_append.mp h2 with h3 | h3
      · exact hrPreal h3
      · exact hrU h3
    rw [realPages_append] at dmNodup
    obtain ⟨ndDP, ndDU, disjD⟩ := List.nodup_append.mp dmNodup
    have hrDP : r ∉ realPages (pagesOf (demoteInto priv u tk now).1) := by
      intro h
      exact hrdm (by rw [realPages_append]; exact List.mem_append.mpr (Or.inl h))
    have hrDU : r ∉ realPages (pagesOf (demoteInto priv u tk now).2.1) := by
      intro h
      exact hrdm (by rw [realPages_append]; exact List.mem_append.mpr (Or.inr h))
    rcases insertIntoPartition_spec (demoteInto priv u tk now).1 r
        (demoteInto priv u tk now).2.2 with ⟨hno, hpI⟩ | ⟨k, hk, hpI⟩
    · -- insert found no slot: only possible for the empty privileged partition
      have hndOut : (realPages (pagesOf (insertIntoPartition (demoteInto priv u tk now).1 r
          (demoteInto priv u tk now).2.2).1 ++
          pagesOf (demoteInto priv u tk now).2.1)).Nodup := by
        rw [hpI, realPages_append, List.nodup_append]
        exact ⟨ndDP, ndDU, disjD⟩
      refine ⟨hndOut, by rw [length_eq_of_pagesOf_eq hpI, dmLenP], dmLenU, ?_, ?_⟩
      · intro y hy
        rw [realPages_append, hpI] at hy
        refine Or.inr (dmSub y ?_)
        rw [realPages_append]
        exact hy
      · intro hne hr1
        exact absurd (dmSpace hne) (by rw [hno]; simp)
    · have hndIns : (realPages (pagesOf (insertIntoPartition (demoteInto priv u tk now).1 r
          (demoteInto priv u tk now).2.2).1)).Nodup := by
        rw [hpI]
        exact nodup_realPages_set ndDP hrDP
      have subIns : ∀ y ∈ realPages (pagesOf (insertIntoPartition (demoteInto priv u tk now).1 r
          (demoteInto priv u tk now).2.2).1),
          y = r ∨ y ∈ realPages (pagesOf (demoteInto priv u tk now).1) := by
        intro y hy; rw [hpI] at hy; exact mem_of_mem_realPages_set hy
      refine ⟨?_, by rw [length_eq_of_pagesOf_set hpI, dmLenP], dmLenU, ?_, ?_⟩
      · rw [realPages_append, List.nodup_append]
        refine ⟨hndIns, ndDU, ?_⟩
        intro y hyI hyU
        rcases subIns y hyI with h1 | h1
        · rw [h1] at hyU; exact hrDU hyU
        · exact disjD h1 hyU
      · intro y hy
        rw [realPages_append] at hy
        rcases List.mem_append.mp hy with hy | hy
        · rcases subIns y hy with h1 | h1
          · exact Or.inl h1
          · refine Or.inr (dmSub y ?_)
            rw [realPages_append]
            exact List.mem_append.mpr (Or.inl h1)
        · refine Or.inr (dmSub y ?_)
          rw [realPages_append]
          exact List.mem_append.mpr (Or.inr hy)
      · intro hne hr1
        rw [realPages_append]
        refine List.mem_append.mpr (Or.inl (mem_realPages.mpr ⟨?_, hr1⟩))
        rw [hpI]
        apply List.mem_set
        rw [pagesOf_length]
        exact hk

/-- Combined residency specification of the LFRU step: duplicate-freedom
across the two partitions is preserved, partition sizes are preserved, the
step hits exactly when the page is resident in either partition, no page
other than the requested one appears, and (for the real partition sizes)
the requested page is resident afterwards. -/
theorem lfruStep_spec (s : SimState) (r : Int) (t : Nat)
    (hnd : (realPages (pagesOf s.priv ++ pagesOf s.unpriv)).Nodup) :
    (realPages (pagesOf (lfruStep s r t).1.priv ++ pagesOf (lfruStep s r t).1.unpriv)).Nodup ∧
    (lfruStep s r t).1.priv.length = s.priv.length ∧
    (lfruStep s r t).1.unpriv.length = s.unpriv.length ∧
    ((lfruStep s r t).2 = false ↔ r ∈ pagesOf s.priv ++ pagesOf s.unpriv) ∧
    (∀ y ∈ realPages (pagesOf (lfruStep s r t).1.priv ++ pagesOf (lfruStep s r t).1.unpriv),
      y = r ∨ y ∈ realPages (pagesOf s.priv ++ pagesOf s.unpriv)) ∧
    (s.priv ≠ [] → r ≠ -1 →
      r ∈ realPages (pagesOf (lfruStep s r t).1.priv ++ pagesOf (lfruStep s r t).1.unpriv)) := by
  unfold lfruStep
  by_cases hP : hasPage s.priv r = true
  · rw [if_pos hP]
    dsimp only
    have hpg := updateLRU_pages s.priv r s.ticks
    have hrm : r ∈ pagesOf s.priv := (hasPage_iff _ _).mp hP
    refine ⟨?_, length_eq_of_pagesOf_eq hpg, rfl, ?_, ?_, ?_⟩
    · rw [hpg]; exact hnd
    · exact iff_of_true rfl (List.mem_append.mpr (Or.inl hrm))
    · intro y hy; rw [hpg] at hy; exact Or.inr hy
    · intro hne hr1
      rw [hpg, realPages_append]
      exact List.mem_append.mpr (Or.inl (mem_realPages.mpr ⟨hrm, hr1⟩))
  · rw [if_neg hP]
    have hrP : r ∉ pagesOf s.priv := fun h => hP ((hasPage_iff _ _).mpr h)
    by_cases hU : hasPage s.unpriv r = true
    · rw [if_pos hU]
      dsimp only
      have hrmU : r ∈ pagesOf s.unpriv := (hasPage_iff _ _).mp hU
      have hnd' := hnd
      rw [realPages_append] at hnd'
      obtain ⟨hndP, hndU, hdisj⟩ := List.nodup_append.mp hnd'
      rcases removeFromPartition_spec s.unpriv r (t + 1) with ⟨-, hnone⟩ | ⟨i, hfind, hp1⟩
      · exfalso
        rw [List.findIdx?_eq_none_iff] at hnone
        have := hnone r hrmU
        simp at this
      · have lenU1 : (removeFromPartition s.unpriv r (t + 1)).length = s.unpriv.length :=
          length_eq_of_pagesOf_set hp1
        have hndU1 : (realPages (pagesOf (removeFromPartition s.unpriv r (t + 1)))).Nodup := by
          rw [hp1]; exact nodup_realPages_set hndU (neg_one_not_mem_realPages _)
        have subU1 : ∀ y ∈ realPages (pagesOf (removeFromPartition s.unpriv r (t + 1))),
            y ∈ realPages (pagesOf s.unpriv) := by
          intro y hy; rw [hp1] at hy; exact mem_realPages_mono_set_neg hy
        have hrU1 : r ∉ realPages (pagesOf (removeFromPartition s.unpriv r (t + 1))) := by
          rw [hp1]; exact not_mem_realPages_set_of_findIdx? hndU hfind
        have hndPU1 : (realPages (pagesOf s.priv ++
            pagesOf (removeFromPartition s.unpriv r (t + 1)))).Nodup := by
          rw [realPages_append, List.nodup_append]
          exact ⟨hndP, hndU1, fun y hy hy2 => hdisj hy (subU1 y hy2)⟩
        obtain ⟨piNodup, piLenP, piLenU, piSub, piMem⟩ :=
          promoteInsert_spec s.priv (removeFromPartition s.unpriv r (t + 1)) r
            s.ticks (t + 1) hndPU1 hrP hrU1
        refine ⟨piNodup, piLenP, piLenU.trans lenU1, ?_, ?_, piMem⟩
        · exact iff_of_true rfl (List.mem_append.mpr (Or.inr hrmU))
        · intro y hy
          rcases piSub y hy with h1 | h1
          · exact Or.inl h1
          · right
            rw [realPages_append] at h1
            rw [realPages_append]
            rcases List.mem_append.mp h1 with h2 | h2
            · exact List.mem_append.mpr (Or.inl h2)
            · exact List.mem_append.mpr (Or.inr (subU1 y h2))
    · rw [if_neg hU]
      dsimp only
      have hrUps : r ∉ pagesOf s.unpriv := fun h => hU ((hasPage_iff _ _).mpr h)
      have hrUreal : r ∉ realPages (pagesOf s.unpriv) := fun h => hrUps (mem_realPages.mp h).1
      obtain ⟨piNodup, piLenP, piLenU, piSub, piMem⟩ :=
        promoteInsert_spec s.priv s.unpriv r s.ticks (t + 1) hnd hrP hrUreal
      rw [handlePageInsertion_eq_promoteInsert s.priv s.unpriv r s.ticks (t + 1)]
      refine ⟨piNodup, piLenP, piLenU, ?_, piSub, piMem⟩
      refine iff_of_false (by simp) ?_
      intro h
      rcases List.mem_append.mp h with h1 | h1
      · exact hrP h1
      · exact hrUps h1

/-! ## C3: no duplicate resident pages, for every policy -/

theorem processRef_fields (p : Policy) (refs : List Int) (rnd : Nat → Nat) (t : Nat)
    (s : SimState) :
    (processRef p refs rnd t s).table = (stepOf p refs rnd t s).1.table ∧
    (processRef p refs rnd t s).priv = (stepOf p refs rnd t s).1.priv ∧
    (processRef p refs rnd t s).unpriv = (stepOf p refs rnd t s).1.unpriv ∧
    (processRef p refs rnd t s).hand = (stepOf p refs rnd t s).1.hand ∧
    (processRef p refs rnd t s).victims = (stepOf p refs rnd t s).1.victims ∧
    (processRef p refs rnd t s).ticks = (stepOf p refs rnd t s).1.ticks := by
  unfold processRef
  cases hsf : stepOf p refs rnd t s with
  | mk s' fault => cases fault <;> exact ⟨rfl, rfl, rfl, rfl, rfl, rfl⟩

/-- Dispatch of the per-policy residency shape through `stepOf`. -/
theorem stepOf_table_shape (p : Policy) (hp : p ≠ Policy.LFRU) (refs : List Int)
    (rnd : Nat → Nat) (t : Nat) (s : SimState) :
    TableShape (pagesOf s.table) (refs.getD t 0) (pagesOf (stepOf p refs rnd t s).1.table)
      (stepOf p refs rnd t s).2 := by
  cases p <;> simp only [stepOf] <;>
  first
  | exact optimalStep_shape refs s (refs.getD t 0) t
  | exact randomStep_shape s (refs.getD t 0) t (rnd t)
  | exact fifoStep_shape s (refs.getD t 0) t
  | exact lruStep_shape s (refs.getD t 0) t
  | exact clockStep_shape s (refs.getD t 0)
  | exact nfuStep_shape s (refs.getD t 0) t
  | exact agingStep_shape s (refs.getD t 0) t
  | exact mruStep_shape s (refs.getD t 0) t
  | exact nruStep_shape s (refs.getD t 0) t
  | exact mfuStep_shape s (refs.getD t 0)
  | exact lfuStep_shape s (refs.getD t 0)
  | exact absurd rfl hp

/-- The LFRU step never touches the page table. -/
theorem lfruStep_table (s : SimState) (r : Int) (t : Nat) :
    (lfruStep s r t).1.table = s.table := by
  unfold lfruStep
  (repeat' split) <;> rfl

/-- No policy other than LFRU touches the partitions. -/
theorem stepOf_partitions (p : Policy) (hp : p ≠ Policy.LFRU) (refs : List Int)
    (rnd : Nat → Nat) (t : Nat) (s : SimState) :
    (stepOf p refs rnd t s).1.priv = s.priv ∧ (stepOf p refs rnd t s).1.unpriv = s.unpriv := by
  cases p <;> first
  | exact absurd rfl hp
  | (simp only [stepOf, optimalStep, randomStep, fifoStep, lruStep, clockStep, nfuStep,
      agingStep, mruStep, nruStep, mfuStep, lfuStep]
     (repeat' split) <;> exact ⟨rfl, rfl⟩)

theorem initState_table_nodup (F h0 : Nat) :
    realPages (pagesOf (initState F h0).table) = [] := by
  rw [realPages, List.filter_eq_nil_iff]
  intro a ha
  obtain ⟨f, hf, hpf⟩ := List.mem_map.mp ha
  obtain ⟨i, -, hif⟩ := List.mem_map.mp hf
  simp [← hif, initFrame] at hpf
  simp [← hpf]

theorem initState_partitions_nodup (F h0 : Nat) :
    realPages (pagesOf (initState F h0).priv ++ pagesOf (initState F h0).unpriv) = [] := by
  rw [realPages, List.filter_eq_nil_iff]
  intro a ha
  rcases List.mem_append.mp ha with h | h <;>
  · obtain ⟨f, hf, hpf⟩ := List.mem_map.mp h
    have := List.eq_of_mem_replicate hf
    simp [this, initFrame] at hpf
    simp [← hpf]

/-- Both residency invariants hold after every prefix of every run. -/
theorem runSimFrom_nodup (F h0 : Nat) (p : Policy) (refs : List Int) (rnd : Nat → Nat) :
    ∀ n, (realPages (pagesOf (runSimFrom F h0 p refs rnd n).table)).Nodup ∧
      (realPages (pagesOf (runSimFrom F h0 p refs rnd n).priv ++
        pagesOf (runSimFrom F h0 p refs rnd n).unpriv)).Nodup := by
  intro n
  induction n with
  | zero =>
    constructor
    · rw [show runSimFrom F h0 p refs rnd 0 = initState F h0 from rfl, initState_table_nodup]
      exact List.nodup_nil
    · rw [show runSimFrom F h0 p refs rnd 0 = initState F h0 from rfl,
        initState_partitions_nodup]
      exact List.nodup_nil
  | succ n ih =>
    obtain ⟨ih1, ih2⟩ := ih
    obtain ⟨ht, hpv, hup, -, -, -⟩ := processRef_fields p refs rnd n (runSimFrom F h0 p refs rnd n)
    have hrun : runSimFrom F h0 p refs rnd (n + 1) =
        processRef p refs rnd n (runSimFrom F h0 p refs rnd n) := rfl
    by_cases hp : p = Policy.LFRU
    · subst hp
      constructor
      · rw [hrun, ht]
        have htb : (stepOf Policy.LFRU refs rnd n (runSimFrom F h0 Policy.LFRU refs rnd n)).1.table
            = (runSimFrom F h0 Policy.LFRU refs rnd n).table :=
          lfruStep_table (runSimFrom F h0 Policy.LFRU refs rnd n) (refs.getD n 0) n
        rw [htb]
        exact ih1
      · rw [hrun, hpv, hup]
        exact (lfruStep_spec (runSimFrom F h0 Policy.LFRU refs rnd n) (refs.getD n 0) n ih2).1
    · constructor
      · rw [hrun, ht]
        rcases stepOf_table_shape p hp refs rnd n (runSimFrom F h0 p refs rnd n) with
          ⟨-, heq, -⟩ | ⟨-, hrnot, hcase⟩
        · rw [heq]; exact ih1
        · rcases hcase with ⟨-, heq⟩ | ⟨i, -, heq⟩
          · rw [heq]; exact ih1
          · rw [heq]
            exact nodup_realPages_set ih1 (fun h => hrnot (mem_realPages.mp h).1)
      · rw [hrun, hpv, hup]
        obtain ⟨h1, h2⟩ := stepOf_partitions p hp refs rnd n (runSimFrom F h0 p refs rnd n)
        rw [h1, h2]
        exact ih2

/-- C3.  No-duplicate residency invariant: for every policy, after every
step on any trace (and any PRNG draw sequence), the non-EMPTY pages held
in that policy's container are pairwise distinct — for LFRU the resident
pages across the privileged and unprivileged partitions together form a
set, so no page is in both partitions at once. -/
theorem c3_no_duplicate_residency (F : Nat) (p : Policy) (refs : List Int)
    (rnd : Nat → Nat) (n : Nat) :
    (residentList p (runSim F p refs rnd n)).Nodup := by
  cases p <;>
  first
  | exact (runSimFrom_nodup F 0 _ refs rnd n).1
  | exact (runSimFrom_nodup F 0 _ refs rnd n).2

/-! ## C6: NRU is exactly LRU

`nru` is `lru` minus the (never-read) `extra` bookkeeping, so the two
runs agree on every observable: outcome, resident pages, victim choice
(both take the frame of minimal `time`), and the victims' identities. -/

/-- The fields of a frame that LRU and NRU can disagree on are only
`extra` bookkeeping; this view carries everything both policies read or
that the claim observes: slot identity, held page, and wall stamp. -/
def frameView (f : Frame) : Int × Int × Nat := (f.index, f.page, f.time)

theorem pagesOf_eq_of_view {l1 l2 : List Frame}
    (h : l1.map frameView = l2.map frameView) : pagesOf l1 = pagesOf l2 := by
  have h2 := congrArg (List.map (fun x : Int × Int × Nat => x.2.1)) h
  simpa [List.map_map, Function.comp_def, pagesOf, frameView] using h2

theorem timesOf_eq_of_view {l1 l2 : List Frame}
    (h : l1.map frameView = l2.map frameView) :
    l1.map (fun f => f.time) = l2.map (fun f => f.time) := by
  have h2 := congrArg (List.map (fun x : Int × Int × Nat => x.2.2)) h
  simpa [List.map_map, Function.comp_def, frameView] using h2

theorem hitIdx?_congr {l1 l2 : List Frame} (r : Int)
    (h : pagesOf l1 = pagesOf l2) : hitIdx? l1 r = hitIdx? l2 r := by
  show l1.findIdx? (fun f => f.page == r) = l2.findIdx? (fun f => f.page == r)
  rw [frame_findIdx?_eq, frame_findIdx?_eq, h]

theorem emptyIdx?_congr {l1 l2 : List Frame}
    (h : pagesOf l1 = pagesOf l2) : emptyIdx? l1 = emptyIdx? l2 := by
  show l1.findIdx? (fun f => f.page == -1) = l2.findIdx? (fun f => f.page == -1)
  rw [frame_findIdx?_eq, frame_findIdx?_eq, h]

theorem cppMinIdxGo_time_congr :
    ∀ (ys1 ys2 : List Frame) (b1 b2 : Frame) (bi i : Nat),
      ys1.map (fun f => f.time) = ys2.map (fun f => f.time) → b1.time = b2.time →
      cppMinIdxGo (fun a b => a.time < b.time) ys1 b1 bi i =
        cppMinIdxGo (fun a b => a.time < b.time) ys2 b2 bi i := by
  intro ys1
  induction ys1 with
  | nil =>
    intro ys2 b1 b2 bi i h hb
    cases ys2 with
    | nil => rfl
    | cons z zs => simp at h
  | cons y ys ih =>
    intro ys2 b1 b2 bi i h hb
    cases ys2 with
    | nil => simp at h
    | cons z zs =>
      simp only [List.map_cons, List.cons.injEq] at h
      obtain ⟨hyz, hrest⟩ := h
      show (if (y.time < b1.time : Bool) then cppMinIdxGo _ ys y i (i + 1)
            else cppMinIdxGo _ ys b1 bi (i + 1)) =
          (if (z.time < b2.time : Bool) then cppMinIdxGo _ zs z i (i + 1)
            else cppMinIdxGo _ zs b2 bi (i + 1))
      rw [hyz, hb]
      by_cases hc : z.time < b2.time
      · rw [if_pos (by simpa using hc), if_pos (by simpa using hc)]
        exact ih zs y z i (i + 1) hrest hyz
      · rw [if_neg (by simpa using hc), if_neg (by simpa using hc)]
        exact ih zs b1 b2 bi (i + 1) hrest hb

theorem cppMinIdx_time_congr {l1 l2 : List Frame}
    (h : l1.map (fun f => f.time) = l2.map (fun f => f.time)) :
    cppMinIdx (fun a b => a.time < b.time) l1 = cppMinIdx (fun a b => a.time < b.time) l2 := by
  cases l1 with
  | nil =>
    cases l2 with
    | nil => rfl
    | cons z zs => simp at h
  | cons y ys =>
    cases l2 with
    | nil => simp at h
    | cons z zs =>
      simp only [List.map_cons, List.cons.injEq] at h
      exact cppMinIdxGo_time_congr ys zs y z 0 1 h.2 h.1

theorem updateAt_view_congr {l1 l2 : List Frame} (i : Nat) (g1 g2 : Frame → Frame)
    (h : l1.map frameView = l2.map frameView)
    (hg : ∀ f1 f2, frameView f1 = frameView f2 → frameView (g1 f1) = frameView (g2 f2)) :
    (updateAt l1 i g1).map frameView = (updateAt l2 i g2).map frameView := by
  unfold updateAt
  cases h1 : l1[i]? with
  | none =>
    have h2 : l2[i]? = none := by
      have hlen : l1.length = l2.length := by
        have := congrArg List.length h
        simpa using this
      rw [List.getElem?_eq_none_iff] at h1 ⊢
      omega
    rw [h2]
    exact h
  | some f1 =>
    have hview : (l2[i]?).map frameView = some (frameView f1) := by
      have e1 : (l1.map frameView)[i]? = some (frameView f1) := by
        rw [List.getElem?_map, h1]
        rfl
      rw [h] at e1
      rw [List.getElem?_map] at e1
      exact e1
    obtain ⟨f2, h2, hf⟩ := Option.map_eq_some'.mp hview
    rw [h2, List.map_set, List.map_set, h, hg f1 f2 hf.symm]

/-- One step of LRU and one step of NRU, from view-equal states, agree on
outcome, victim, and resulting view. -/
theorem lru_nru_step_view (s1 s2 : SimState) (r : Int) (t : Nat)
    (htab : s1.table.map frameView = s2.table.map frameView)
    (hvic : s1.victims.map frameView = s2.victims.map frameView) :
    (lruStep s1 r t).1.table.map frameView = (nruStep s2 r t).1.table.map frameView ∧
    (lruStep s1 r t).1.victims.map frameView = (nruStep s2 r t).1.victims.map frameView ∧
    (lruStep s1 r t).2 = (nruStep s2 r t).2 := by
  have hpag := pagesOf_eq_of_view htab
  have htim := timesOf_eq_of_view htab
  unfold lruStep nruStep
  rw [hitIdx?_congr r hpag, emptyIdx?_congr hpag, cppMinIdx_time_congr htim]
  cases hh : hitIdx? s2.table r with
  | some i =>
    dsimp only
    refine ⟨?_, hvic, rfl⟩
    refine updateAt_view_congr i _ _ htab ?_
    intro f1 f2 hf
    simp only [frameView, Prod.mk.injEq] at hf ⊢
    tauto
  | none =>
    cases he : emptyIdx? s2.table with
    | some i =>
      dsimp only
      refine ⟨?_, hvic, rfl⟩
      apply updateAt_view_congr i _ _ htab
      intro f1 f2 hf
      simp only [frameView, Prod.mk.injEq] at hf ⊢
      tauto
    | none =>
      dsimp only
      cases h1 : s1.table[cppMinIdx (fun a b => a.time < b.time) s2.table]? with
      | none =>
        have h2 : s2.table[cppMinIdx (fun a b => a.time < b.time) s2.table]? = none := by
          have hlen : s1.table.length = s2.table.length := by
            have := congrArg List.length htab
            simpa using this
          rw [List.getElem?_eq_none_iff] at h1 ⊢
          omega
        rw [h2]
        exact ⟨htab, hvic, rfl⟩
      | some f1 =>
        have hview : (s2.table[cppMinIdx (fun a b => a.time < b.time) s2.table]?).map frameView
            = some (frameView f1) := by
          have e1 : (s1.table.map frameView)[cppMinIdx (fun a b => a.time < b.time) s2.table]?
              = some (frameView f1) := by
            rw [List.getElem?_map, h1]
            rfl
          rw [htab] at e1
          rw [List.getElem?_map] at e1
          exact e1
        obtain ⟨f2, h2, hf⟩ := Option.map_eq_some'.mp hview
        rw [h2]
        dsimp only
        refine ⟨?_, ?_, rfl⟩
        · rw [List.map_set, List.map_set, htab]
          have : frameView { f1 with page := r, time := t + 1, extra := (t : Int) } =
              frameView { f2 with page := r, time := t + 1 } := by
            simp only [frameView, Prod.mk.injEq] at hf ⊢
            tauto
          rw [this]
        · rw [List.map_append, List.map_append, hvic]
          simp only [List.map_cons, List.map_nil]
          rw [hf]

/-- The LRU and NRU runs agree on views, victims and counters at every
step. -/
theorem lru_nru_run_agree (F : Nat) (refs : List Int) (rnd : Nat → Nat) :
    ∀ n, (runSim F Policy.LRU refs rnd n).table.map frameView =
        (runSim F Policy.NRU refs rnd n).table.map frameView ∧
      (runSim F Policy.LRU refs rnd n).victims.map frameView =
        (runSim F Policy.NRU refs rnd n).victims.map frameView ∧
      (runSim F Policy.LRU refs rnd n).hits = (runSim F Policy.NRU refs rnd n).hits ∧
      (runSim F Policy.LRU refs rnd n).misses = (runSim F Policy.NRU refs rnd n).misses := by
  intro n
  induction n with
  | zero => exact ⟨rfl, rfl, rfl, rfl⟩
  | succ n ih =>
    obtain ⟨ihT, ihV, ihH, ihM⟩ := ih
    obtain ⟨stT, stV, stB⟩ :=
      lru_nru_step_view (runSim F Policy.LRU refs rnd n) (runSim F Policy.NRU refs rnd n)
        (refs.getD n 0) n ihT ihV
    have hL := processRef_fields Policy.LRU refs rnd n (runSim F Policy.LRU refs rnd n)
    have hN := processRef_fields Policy.NRU refs rnd n (runSim F Policy.NRU refs rnd n)
    have hcL := stepOf_counters Policy.LRU refs rnd n (runSim F Policy.LRU refs rnd n)
    have hcN := stepOf_counters Policy.NRU refs rnd n (runSim F Policy.NRU refs rnd n)
    have hrunL : runSim F Policy.LRU refs rnd (n + 1) =
        processRef Policy.LRU refs rnd n (runSim F Policy.LRU refs rnd n) := rfl
    have hrunN : runSim F Policy.NRU refs rnd (n + 1) =
        processRef Policy.NRU refs rnd n (runSim F Policy.NRU refs rnd n) := rfl
    refine ⟨?_, ?_, ?_, ?_⟩
    · rw [hrunL, hrunN, hL.1, hN.1]
      exact stT
    · rw [hrunL, hrunN, hL.2.2.2.2.1, hN.2.2.2.2.1]
      exact stV
    · rw [hrunL, hrunN]
      unfold processRef
      rw [show stepOf Policy.LRU refs rnd n (runSim F Policy.LRU refs rnd n) =
          lruStep (runSim F Policy.LRU refs rnd n) (refs.getD n 0) n from rfl] at hcL ⊢
      rw [show stepOf Policy.NRU refs rnd n (runSim F Policy.NRU refs rnd n) =
          nruStep (runSim F Policy.NRU refs rnd n) (refs.getD n 0) n from rfl] at hcN ⊢
      cases hbL : (lruStep (runSim F Policy.LRU refs rnd n) (refs.getD n 0) n) with
      | mk sL' bL =>
        cases hbN : (nruStep (runSim F Policy.NRU refs rnd n) (refs.getD n 0) n) with
        | mk sN' bN =>
          have hbb : bL = bN := by
            have := stB
            rw [hbL, hbN] at this
            exact this
          rw [hbL] at hcL
          rw [hbN] at hcN
          subst hbb
          cases bL <;> simp_all
    · rw [hrunL, hrunN]
      unfold processRef
      rw [show stepOf Policy.LRU refs rnd n (runSim F Policy.LRU refs rnd n) =
          lruStep (runSim F Policy.LRU refs rnd n) (refs.getD n 0) n from rfl] at hcL ⊢
      rw [show stepOf Policy.NRU refs rnd n (runSim F Policy.NRU refs rnd n) =
          nruStep (runSim F Policy.NRU refs rnd n) (refs.getD n 0) n from rfl] at hcN ⊢
      cases hbL : (lruStep (runSim F Policy.LRU refs rnd n) (refs.getD n 0) n) with
      | mk sL' bL =>
        cases hbN : (nruStep (runSim F Policy.NRU refs rnd n) (refs.getD n 0) n) with
        | mk sN' bN =>
          have hbb : bL = bN := by
            have := stB
            rw [hbL, hbN] at this
            exact this
          rw [hbL] at hcL
          rw [hbN] at hcN
          subst hbb
          cases bL <;> simp_all

/-- C6.  NRU equals LRU: on every trace and frame count the two runs have
identical hit and miss counts, identical resident pages (and wall stamps)
in every slot, and identical victim logs — both evict the frame of
minimal `time`, NRU merely skips the `extra` bookkeeping LRU neither
reads nor needs. -/
theorem c6_nru_equals_lru (F : Nat) (refs : List Int) (rnd : Nat → Nat) (n : Nat) :
    (runSim F Policy.NRU refs rnd n).hits = (runSim F Policy.LRU refs rnd n).hits ∧
    (runSim F Policy.NRU refs rnd n).misses = (runSim F Policy.LRU refs rnd n).misses ∧
    pagesOf (runSim F Policy.NRU refs rnd n).table =
      pagesOf (runSim F Policy.LRU refs rnd n).table ∧
    (runSim F Policy.NRU refs rnd n).victims.map frameView =
      (runSim F Policy.LRU refs rnd n).victims.map frameView := by
  obtain ⟨hT, hV, hH, hM⟩ := lru_nru_run_agree F refs rnd n
  exact ⟨hH.symm, hM.symm, (pagesOf_eq_of_view hT).symm, hV.symm⟩

/-! ## C1: Belady optimality of `optimal`

The claim compares the `optimal` policy's final miss count against every
other policy of the catalogue.  The development below proves the classic
lower bound through an offline cost-to-go function `optCost` (any
demand-paging run incurs at least `optCost` faults), shows the `optimal`
run achieves it (the exchange argument for farthest-in-future eviction),
and instantiates the lower bound for each policy.  LFRU is the exception
that falsifies the claim as stated: its partition pool always holds
`10` pages regardless of the configured frame count. -/

/-- `runSimulation` re-based: process references `t, …, t + k - 1`
starting from an arbitrary mid-run state. -/
def runSeg (p : Policy) (refs : List Int) (rnd : Nat → Nat) : Nat → Nat → SimState → SimState
  | _, 0, s => s
  | t, k + 1, s => runSeg p refs rnd (t + 1) k (processRef p refs rnd t s)

theorem runSeg_succ_last (p : Policy) (refs : List Int) (rnd : Nat → Nat) :
    ∀ (k t : Nat) (s : SimState),
      runSeg p refs rnd t (k + 1) s =
        processRef p refs rnd (t + k) (runSeg p refs rnd t k s) := by
  intro k
  induction k with
  | zero => intro t s; rfl
  | succ k ih =>
    intro t s
    show runSeg p refs rnd (t + 1) (k + 1) (processRef p refs rnd t s) = _
    rw [ih (t + 1)]
    have h : t + 1 + k = t + (k + 1) := by omega
    rw [h]
    rfl

theorem runSimFrom_eq_runSeg (F h0 : Nat) (p : Policy) (refs : List Int) (rnd : Nat → Nat) :
    ∀ n, runSimFrom F h0 p refs rnd n = runSeg p refs rnd 0 n (initState F h0) := by
  intro n
  induction n with
  | zero => rfl
  | succ n ih =>
    show processRef p refs rnd n (runSimFrom F h0 p refs rnd n) = _
    rw [ih, runSeg_succ_last, Nat.zero_add]

/-- The engine step adds `1` to `misses` exactly on a fault. -/
theorem processRef_misses (p : Policy) (refs : List Int) (rnd : Nat → Nat) (t : Nat)
    (s : SimState) :
    (processRef p refs rnd t s).misses =
      s.misses + (if (stepOf p refs rnd t s).2 = true then 1 else 0) := by
  unfold processRef
  have hc := stepOf_counters p refs rnd t s
  cases hsf : stepOf p refs rnd t s with
  | mk s' fault =>
    rw [hsf] at hc
    cases fault <;> simp_all

/-- Steps until the next use of page `x`, with the "never used again"
sentinel `l.length` — the `INT_MAX` of the C++ forward scan, relativised
to the remaining trace. -/
def nuD (l : List Int) (x : Int) : Nat :=
  (l.findIdx? (fun y => y == x)).getD l.length

theorem nuD_cons_self (r : Int) (l : List Int) : nuD (r :: l) r = 0 := by
  simp [nuD]

theorem nuD_cons_ne {r x : Int} (l : List Int) (h : x ≠ r) :
    nuD (r :: l) x = nuD l x + 1 := by
  unfold nuD
  rw [List.findIdx?_cons]
  have hne : (r == x) = false := by simp [Ne.symm h]
  rw [hne, if_neg (by simp), List.findIdx?_succ]
  cases hf : l.findIdx? (fun y => y == x) <;> simp [hf, List.length_cons]

theorem eq_of_nuD_cons_eq_zero {r x : Int} {l : List Int} (h : nuD (r :: l) x = 0) :
    x = r := by
  by_contra hne
  rw [nuD_cons_ne l hne] at h
  omega

/-- Minimum of `f` over a finite set of pages, with default `d` when the
set is empty. -/
def minOver (s : Finset Int) (f : Int → Nat) (d : Nat) : Nat :=
  if h : s.Nonempty then (s.image f).min' (h.image f) else d

theorem minOver_le {s : Finset Int} {f : Int → Nat} {d : Nat} {p : Int} (hp : p ∈ s) :
    minOver s f d ≤ f p := by
  unfold minOver
  rw [dif_pos ⟨p, hp⟩]
  exact Finset.min'_le _ _ (Finset.mem_image_of_mem f hp)

theorem minOver_attained {s : Finset Int} (f : Int → Nat) (d : Nat) (h : s.Nonempty) :
    ∃ p ∈ s, minOver s f d = f p := by
  unfold minOver
  rw [dif_pos h]
  obtain ⟨p, hp, hfp⟩ := Finset.mem_image.mp (Finset.min'_mem (s.image f) (h.image f))
  exact ⟨p, hp, hfp.symm⟩

theorem minOver_empty (f : Int → Nat) (d : Nat) : minOver ∅ f d = d := by
  simp [minOver]

theorem le_minOver {s : Finset Int} {f : Int → Nat} {d n : Nat}
    (hd : n ≤ d) (h : ∀ p ∈ s, n ≤ f p) : n ≤ minOver s f d := by
  rcases s.eq_empty_or_nonempty with he | hne
  · subst he; rw [minOver_empty]; exact hd
  · obtain ⟨p, hp, heq⟩ := minOver_attained f d hne
    rw [heq]; exact h p hp

theorem le_one_add_min {x a b : Nat} (h1 : x ≤ 1 + a) (h2 : x ≤ 1 + b) :
    x ≤ 1 + min a b := by
  rcases Nat.le_total a b with h | h
  · rwa [Nat.min_eq_left h]
  · rwa [Nat.min_eq_right h]

/-- Cost-to-go of offline demand paging with capacity `F`: the fewest
faults any eviction strategy can incur on the remaining trace starting
from resident set `C`.  On a fault the strategy either evicts some
resident page, or (below capacity) inserts without evicting. -/
def optCost (F : Nat) : List Int → Finset Int → Nat
  | [], _ => 0
  | r :: l, C =>
    if r ∈ C then optCost F l C
    else
      if C.card < F then
        1 + min (optCost F l (insert r C))
          (minOver C (fun q => optCost F l (insert r (C.erase q))) (optCost F l (insert r C)))
      else
        1 + minOver C (fun q => optCost F l (insert r (C.erase q))) 0

theorem optCost_nil (F : Nat) (C : Finset Int) : optCost F [] C = 0 := rfl

theorem optCost_cons_mem {F : Nat} {r : Int} {l : List Int} {C : Finset Int} (h : r ∈ C) :
    optCost F (r :: l) C = optCost F l C := by
  simp only [optCost, if_pos h]

theorem optCost_cons_lt {F : Nat} {r : Int} {l : List Int} {C : Finset Int}
    (h : r ∉ C) (hlt : C.card < F) :
    optCost F (r :: l) C =
      1 + min (optCost F l (insert r C))
        (minOver C (fun q => optCost F l (insert r (C.erase q))) (optCost F l (insert r C))) := by
  simp only [optCost, if_neg h, if_pos hlt]

theorem optCost_cons_full {F : Nat} {r : Int} {l : List Int} {C : Finset Int}
    (h : r ∉ C) (hge : ¬ C.card < F) :
    optCost F (r :: l) C =
      1 + minOver C (fun q => optCost F l (insert r (C.erase q))) 0 := by
  simp only [optCost, if_neg h, if_neg hge]

/-- Bound used throughout: replacing one resident page keeps the set
within the old cardinality. -/
theorem card_insert_erase_le {C : Finset Int} {q r : Int} (hq : q ∈ C) :
    (insert r (C.erase q)).card ≤ C.card := by
  have h1 := Finset.card_insert_le r (C.erase q)
  have h2 := Finset.card_erase_of_mem hq
  have h3 := Finset.card_pos.mpr ⟨q, hq⟩
  omega

/-- Monotonicity of the cost-to-go: a larger (still feasible) resident
set never costs more. -/
theorem optCost_mono (F : Nat) :
    ∀ (l : List Int) (C C' : Finset Int), C ⊆ C' → C'.card ≤ F →
      optCost F l C' ≤ optCost F l C := by
  intro l
  induction l with
  | nil => intro C C' _ _; exact Nat.le_refl 0
  | cons r l ih =>
    intro C C' hsub hcard
    by_cases hrC : r ∈ C
    · have hrC' : r ∈ C' := hsub hrC
      rw [optCost_cons_mem hrC, optCost_cons_mem hrC']
      exact ih C C' hsub hcard
    · by_cases hCC : C = C'
      · subst hCC; exact Nat.le_refl _
      · have hcc : C.card < C'.card := by
          rcases Nat.lt_or_ge C.card C'.card with h | h
          · exact h
          · exact absurd (Finset.eq_of_subset_of_card_le hsub h) hCC
        have hCltF : C.card < F := by omega
        by_cases hrC' : r ∈ C'
        · -- hit on the superset, fault on the subset
          rw [optCost_cons_mem hrC', optCost_cons_lt hrC hCltF]
          have hiC : optCost F l C' ≤ optCost F l (insert r C) :=
            ih _ _ (Finset.insert_subset hrC' hsub) hcard
          have hmo : optCost F l C' ≤
              minOver C (fun q => optCost F l (insert r (C.erase q)))
                (optCost F l (insert r C)) := by
            refine le_minOver hiC ?_
            intro q hq
            exact ih _ _ (Finset.insert_subset hrC'
              ((Finset.erase_subset q C).trans hsub)) hcard
          exact le_trans (le_min hiC hmo) (Nat.le_add_left _ 1)
        · -- fault on both
          rw [optCost_cons_lt hrC hCltF]
          have hbound : ∀ q ∈ C,
              optCost F l (insert r (C'.erase q)) ≤ optCost F l (insert r (C.erase q)) := by
            intro q hq
            refine ih _ _ (Finset.insert_subset_insert r (Finset.erase_subset_erase q hsub)) ?_
            have := card_insert_erase_le (C := C') (r := r) (hsub hq)
            omega
          by_cases hlt' : C'.card < F
          · rw [optCost_cons_lt hrC' hlt']
            have h1 : min (optCost F l (insert r C'))
                (minOver C' (fun q => optCost F l (insert r (C'.erase q)))
                  (optCost F l (insert r C'))) ≤ optCost F l (insert r C) := by
              refine le_trans (Nat.min_le_left _ _) ?_
              refine ih _ _ (Finset.insert_subset_insert r hsub) ?_
              have := Finset.card_insert_le r C'
              omega
            refine Nat.add_le_add_left (le_min h1 (le_minOver h1 ?_)) 1
            intro q hq
            exact le_trans (Nat.min_le_right _ _)
              (le_trans (minOver_le (hsub hq)) (hbound q hq))
          · rw [optCost_cons_full hrC' hlt']
            have h1 : minOver C' (fun q => optCost F l (insert r (C'.erase q))) 0 ≤
                optCost F l (insert r C) := by
              obtain ⟨q, hqC', hqC⟩ :=
                Finset.exists_of_ssubset (Finset.ssubset_iff_subset_ne.mpr ⟨hsub, hCC⟩)
              refine le_trans (minOver_le hqC') ?_
              refine ih _ _ (Finset.insert_subset_insert r (Finset.subset_erase.mpr
                ⟨hsub, hqC⟩)) ?_
              have := card_insert_erase_le (C := C') (r := r) hqC'
              omega
            refine Nat.add_le_add_left (le_min h1 (le_minOver h1 ?_)) 1
            intro q hq
            exact le_trans (minOver_le (hsub hq)) (hbound q hq)

/-- Deficit bound: starting from a subset of a feasible resident set
costs at most the size difference more. -/
theorem optCost_deficit (F : Nat) :
    ∀ (l : List Int) (C C' : Finset Int), C ⊆ C' → C'.card ≤ F →
      optCost F l C ≤ (C'.card - C.card) + optCost F l C' := by
  intro l
  induction l with
  | nil => intro C C' _ _; exact Nat.zero_le _
  | cons r l ih =>
    intro C C' hsub hcard
    by_cases hCC : C = C'
    · subst hCC; omega
    · have hcc : C.card < C'.card := by
        rcases Nat.lt_or_ge C.card C'.card with h | h
        · exact h
        · exact absurd (Finset.eq_of_subset_of_card_le hsub h) hCC
      by_cases hrC : r ∈ C
      · have hrC' : r ∈ C' := hsub hrC
        rw [optCost_cons_mem hrC, optCost_cons_mem hrC']
        have := ih C C' hsub hcard
        omega
      · have hCltF : C.card < F := by omega
        rw [optCost_cons_lt hrC hCltF]
        by_cases hrC' : r ∈ C'
        · -- hit on the superset
          rw [optCost_cons_mem hrC']
          have h1 : optCost F l (insert r C) ≤
              (C'.card - (insert r C).card) + optCost F l C' :=
            ih (insert r C) C' (Finset.insert_subset hrC' hsub) hcard
          have he : (insert r C).card = C.card + 1 := Finset.card_insert_of_not_mem hrC
          have hmin := Nat.min_le_left (optCost F l (insert r C))
            (minOver C (fun q => optCost F l (insert r (C.erase q))) (optCost F l (insert r C)))
          omega
        · -- fault on both sides
          have hC'ne : C'.Nonempty := Finset.card_pos.mp (by omega)
          have hq_step : ∀ q ∈ C',
              min (optCost F l (insert r C))
                (minOver C (fun p => optCost F l (insert r (C.erase p)))
                  (optCost F l (insert r C))) ≤
                (C'.card - C.card) + optCost F l (insert r (C'.erase q)) := by
            intro q hq
            have e2 : (insert r (C'.erase q)).card = C'.card := by
              rw [Finset.card_insert_of_not_mem (fun h => hrC' (Finset.mem_of_mem_erase h)),
                Finset.card_erase_of_mem hq]
              have := Finset.card_pos.mpr ⟨q, hq⟩
              omega
            have hcard2 : (insert r (C'.erase q)).card ≤ F := by omega
            by_cases hqC : q ∈ C
            · have e1 : (insert r (C.erase q)).card = C.card := by
                rw [Finset.card_insert_of_not_mem (fun h => hrC (Finset.mem_of_mem_erase h)),
                  Finset.card_erase_of_mem hqC]
                have := Finset.card_pos.mpr ⟨q, hqC⟩
                omega
              have hstep := ih (insert r (C.erase q)) (insert r (C'.erase q))
                (Finset.insert_subset_insert r (Finset.erase_subset_erase q hsub)) hcard2
              refine le_trans (Nat.min_le_right _ _) (le_trans (minOver_le hqC) ?_)
              omega
            · have e1 : (insert r C).card = C.card + 1 := Finset.card_insert_of_not_mem hrC
              have hstep := ih (insert r C) (insert r (C'.erase q))
                (Finset.insert_subset_insert r (Finset.subset_erase.mpr ⟨hsub, hqC⟩)) hcard2
              refine le_trans (Nat.min_le_left _ _) ?_
              omega
          by_cases hlt' : C'.card < F
          · rw [optCost_cons_lt hrC' hlt']
            have hins : min (optCost F l (insert r C))
                (minOver C (fun p => optCost F l (insert r (C.erase p)))
                  (optCost F l (insert r C))) ≤
                  (C'.card - C.card) + optCost F l (insert r C') := by
              have e1 : (insert r C).card = C.card + 1 := Finset.card_insert_of_not_mem hrC
              have e2 : (insert r C').card = C'.card + 1 := Finset.card_insert_of_not_mem hrC'
              have hstep := ih (insert r C) (insert r C')
                (Finset.insert_subset_insert r hsub) (by omega)
              refine le_trans (Nat.min_le_left _ _) ?_
              omega
            rcases Nat.le_total (optCost F l (insert r C'))
                (minOver C' (fun q => optCost F l (insert r (C'.erase q)))
                  (optCost F l (insert r C'))) with h | h
            · rw [Nat.min_eq_left h]
              omega
            · rw [Nat.min_eq_right h]
              obtain ⟨q, hq, hqeq⟩ := minOver_attained
                (fun q => optCost F l (insert r (C'.erase q)))
                (optCost F l (insert r C')) hC'ne
              rw [hqeq]
              have := hq_step q hq
              omega
          · rw [optCost_cons_full hrC' hlt']
            obtain ⟨q, hq, hqeq⟩ := minOver_attained
              (fun q => optCost F l (insert r (C'.erase q))) 0 hC'ne
            rw [hqeq]
            have := hq_step q hq
            omega

/-- Exchange (Belady): with the same other residents, keeping the page
whose next use comes sooner never costs more — equivalently, evicting
the page whose next use is farthest away is an optimal choice. -/
theorem optCost_exchange (F : Nat) :
    ∀ (l : List Int) (D : Finset Int) (a b : Int), a ∉ D → b ∉ D →
      D.card + 1 ≤ F → nuD l a ≤ nuD l b →
      optCost F l (insert a D) ≤ optCost F l (insert b D) := by
  intro l
  induction l with
  | nil => intro D a b _ _ _ _; exact Nat.le_refl 0
  | cons r l ih =>
    intro D a b haD hbD hcard hnu
    by_cases hab : a = b
    · subst hab; exact Nat.le_refl _
    by_cases hra : r = a
    · -- the request is the far page: the left side hits
      subst hra
      rw [optCost_cons_mem (Finset.mem_insert_self r D)]
      have hrB : r ∉ insert b D := by
        intro h
        rcases Finset.mem_insert.mp h with h | h
        exacts [hab h, haD h]
      have hcB : (insert b D).card = D.card + 1 := Finset.card_insert_of_not_mem hbD
      have hopt : ∀ q ∈ insert b D,
          optCost F l (insert r D) ≤ 1 + optCost F l (insert r ((insert b D).erase q)) := by
        intro q hq
        rcases Finset.mem_insert.mp hq with hqb | hqD
        · subst hqb
          rw [Finset.erase_insert hbD]
          exact Nat.le_add_left _ 1
        · have hqb : q ≠ b := fun h => hbD (h ▸ hqD)
          rw [Finset.erase_insert_of_ne (Ne.symm hqb)]
          have hrE : r ∉ D.erase q := fun h => haD (Finset.mem_of_mem_erase h)
          have hbE : b ∉ insert r (D.erase q) := by
            intro h
            rcases Finset.mem_insert.mp h with h | h
            exacts [hab h.symm, hbD (Finset.mem_of_mem_erase h)]
          have hcE : (insert r (D.erase q)).card = D.card := by
            rw [Finset.card_insert_of_not_mem hrE, Finset.card_erase_of_mem hqD]
            have := Finset.card_pos.mpr ⟨q, hqD⟩
            omega
          have he : insert q (insert r (D.erase q)) = insert r D := by
            rw [Finset.Insert.comm, Finset.insert_erase hqD]
          have hmono : optCost F l (insert r D) ≤ optCost F l (insert r (D.erase q)) := by
            have h2 : optCost F l (insert q (insert r (D.erase q))) ≤
                optCost F l (insert r (D.erase q)) := by
              refine optCost_mono F l _ _ (Finset.subset_insert q _) ?_
              rw [he, Finset.card_insert_of_not_mem haD]
              exact hcard
            rwa [he] at h2
          have hc2 : (insert b (insert r (D.erase q))).card = D.card + 1 := by
            rw [Finset.card_insert_of_not_mem hbE, hcE]
          have hdef := optCost_deficit F l (insert r (D.erase q))
            (insert b (insert r (D.erase q))) (Finset.subset_insert b _) (by omega)
          have hcomm : insert b (insert r (D.erase q)) = insert r (insert b (D.erase q)) :=
            Finset.Insert.comm b r _
          rw [hcomm] at hdef hc2
          omega
      have hBne : (insert b D).Nonempty := ⟨b, Finset.mem_insert_self b D⟩
      by_cases hlt : (insert b D).card < F
      · rw [optCost_cons_lt hrB hlt]
        refine le_one_add_min ?_ ?_
        · have hrIB : r ∉ insert b D := hrB
          have hcIB : (insert r (insert b D)).card = D.card + 2 := by
            rw [Finset.card_insert_of_not_mem hrIB, hcB]
          have hdef := optCost_deficit F l (insert r D) (insert r (insert b D))
            (Finset.insert_subset_insert r (Finset.subset_insert b D)) (by omega)
          have hcA : (insert r D).card = D.card + 1 := Finset.card_insert_of_not_mem haD
          omega
        · obtain ⟨q, hq, hqeq⟩ := minOver_attained
            (fun q => optCost F l (insert r ((insert b D).erase q)))
            (optCost F l (insert r (insert b D))) hBne
          rw [hqeq]
          exact hopt q hq
      · rw [optCost_cons_full hrB hlt]
        obtain ⟨q, hq, hqeq⟩ := minOver_attained
          (fun q => optCost F l (insert r ((insert b D).erase q))) 0 hBne
        rw [hqeq]
        exact hopt q hq
    · by_cases hrb : r = b
      · -- impossible: b is used right now, yet a's next use is no later
        exfalso
        subst hrb
        rw [nuD_cons_self] at hnu
        have := eq_of_nuD_cons_eq_zero (Nat.le_zero.mp hnu)
        exact hra this.symm
      · -- the request is neither page
        have hnu' : nuD l a ≤ nuD l b := by
          rw [nuD_cons_ne l (show a ≠ r from fun h => hra h.symm),
            nuD_cons_ne l (show b ≠ r from fun h => hrb h.symm)] at hnu
          omega
        by_cases hrD : r ∈ D
        · rw [optCost_cons_mem (Finset.mem_insert_of_mem hrD),
            optCost_cons_mem (Finset.mem_insert_of_mem hrD)]
          exact ih D a b haD hbD hcard hnu'
        · have hrA : r ∉ insert a D := by
            intro h
            rcases Finset.mem_insert.mp h with h | h
            exacts [hra h, hrD h]
          have hrB : r ∉ insert b D := by
            intro h
            rcases Finset.mem_insert.mp h with h | h
            exacts [hrb h, hrD h]
          have hcA : (insert a D).card = D.card + 1 := Finset.card_insert_of_not_mem haD
          have hcB : (insert b D).card = D.card + 1 := Finset.card_insert_of_not_mem hbD
          have hoptA : ∀ (dA : Nat), ∀ q ∈ insert b D,
              minOver (insert a D)
                (fun p => optCost F l (insert r ((insert a D).erase p))) dA ≤
                optCost F l (insert r ((insert b D).erase q)) := by
            intro dA q hq
            rcases Finset.mem_insert.mp hq with hqb | hqD
            · subst hqb
              have h1 : minOver (insert a D)
                  (fun p => optCost F l (insert r ((insert a D).erase p))) dA ≤
                    optCost F l (insert r ((insert a D).erase a)) :=
                minOver_le (Finset.mem_insert_self a D)
              rw [Finset.erase_insert haD] at h1
              rw [Finset.erase_insert hbD]
              exact h1
            · have hqa : q ≠ a := fun h => haD (h ▸ hqD)
              have hqb : q ≠ b := fun h => hbD (h ▸ hqD)
              have h1 : minOver (insert a D)
                  (fun p => optCost F l (insert r ((insert a D).erase p))) dA ≤
                    optCost F l (insert r ((insert a D).erase q)) :=
                minOver_le (Finset.mem_insert_of_mem hqD)
              rw [Finset.erase_insert_of_ne (Ne.symm hqa)] at h1
              rw [Finset.erase_insert_of_ne (Ne.symm hqb)]
              have hrE : r ∉ D.erase q := fun h => hrD (Finset.mem_of_mem_erase h)
              have haE : a ∉ insert r (D.erase q) := by
                intro h
                rcases Finset.mem_insert.mp h with h | h
                exacts [hra h.symm, haD (Finset.mem_of_mem_erase h)]
              have hbE : b ∉ insert r (D.erase q) := by
                intro h
                rcases Finset.mem_insert.mp h with h | h
                exacts [hrb h.symm, hbD (Finset.mem_of_mem_erase h)]
              have hcE : (insert r (D.erase q)).card = D.card := by
                rw [Finset.card_insert_of_not_mem hrE, Finset.card_erase_of_mem hqD]
                have := Finset.card_pos.mpr ⟨q, hqD⟩
                omega
              have hih := ih (insert r (D.erase q)) a b haE hbE (by omega) hnu'
              rw [Finset.Insert.comm r a] at h1
              rw [Finset.Insert.comm r b]
              exact le_trans h1 hih
          have hBne : (insert b D).Nonempty := ⟨b, Finset.mem_insert_self b D⟩
          by_cases hlt : (insert b D).card < F
          · have hltA : (insert a D).card < F := by omega
            rw [optCost_cons_lt hrA hltA, optCost_cons_lt hrB hlt]
            refine Nat.add_le_add_left (le_min ?_ ?_) 1
            · -- against the superset's pure-insert option
              have haI : a ∉ insert r D := by
                intro h
                rcases Finset.mem_insert.mp h with h | h
                exacts [hra h.symm, haD h]
              have hbI : b ∉ insert r D := by
                intro h
                rcases Finset.mem_insert.mp h with h | h
                exacts [hrb h.symm, hbD h]
              have hcI : (insert r D).card = D.card + 1 := Finset.card_insert_of_not_mem hrD
              have hih := ih (insert r D) a b haI hbI (by omega) hnu'
              rw [Finset.Insert.comm a r, Finset.Insert.comm b r] at hih
              exact le_trans (Nat.min_le_left _ _) hih
            · obtain ⟨q, hq, hqeq⟩ := minOver_attained
                (fun q => optCost F l (insert r ((insert b D).erase q)))
                (optCost F l (insert r (insert b D))) hBne
              rw [hqeq]
              exact le_trans (Nat.min_le_right _ _)
                (hoptA (optCost F l (insert r (insert a D))) q hq)
          · have hgeA : ¬ (insert a D).card < F := by omega
            rw [optCost_cons_full hrA hgeA, optCost_cons_full hrB hlt]
            refine Nat.add_le_add_left ?_ 1
            obtain ⟨q, hq, hqeq⟩ := minOver_attained
              (fun q => optCost F l (insert r ((insert b D).erase q))) 0 hBne
            rw [hqeq]
            exact hoptA 0 q hq

/-! ### The `optimal` victim maximises the next-use distance -/

theorem optVictimGo_max (key : Frame → Nat) (l : List Frame) :
    ∀ (k i bi : Nat) (maxD : Int), i + k = l.length →
      ∀ (hbi : bi < l.length),
      maxD ≤ (key (l.get ⟨bi, hbi⟩) : Int) →
      (∀ j (hj : j < l.length), j < i → (key (l.get ⟨j, hj⟩) : Int) ≤ maxD) →
      ∃ hres : optVictimGo key (l.drop i) maxD bi i < l.length,
        ∀ j (hj : j < l.length),
          key (l.get ⟨j, hj⟩) ≤ key (l.get ⟨optVictimGo key (l.drop i) maxD bi i, hres⟩) := by
  intro k
  induction k with
  | zero =>
    intro i bi maxD hik hbi hmax hprev
    have hi : i = l.length := by omega
    subst hi
    rw [List.drop_length]
    refine ⟨hbi, ?_⟩
    intro j hj
    have h1 := hprev j hj hj
    have h2 : (key (l.get ⟨j, hj⟩) : Int) ≤ (key (l.get ⟨bi, hbi⟩) : Int) := le_trans h1 hmax
    exact_mod_cast h2
  | succ k ih =>
    intro i bi maxD hik hbi hmax hprev
    have hi : i < l.length := by omega
    rw [List.drop_eq_getElem_cons hi]
    simp only [optVictimGo]
    split
    · rename_i h
      refine ih (i + 1) i (key l[i]) (by omega) hi ?_ ?_
      · exact le_of_eq (by rw [List.get_eq_getElem])
      · intro j hj hji
        rcases Nat.lt_or_ge j i with hlt | hge
        · refine le_trans (hprev j hj hlt) (le_of_lt ?_)
          exact h
        · have hje : j = i := by omega
          subst hje
          exact le_of_eq (by rw [List.get_eq_getElem])
    · rename_i h
      refine ih (i + 1) bi maxD (by omega) hbi hmax ?_
      intro j hj hji
      rcases Nat.lt_or_ge j i with hlt | hge
      · exact hprev j hj hlt
      · have hje : j = i := by omega
        subst hje
        rw [List.get_eq_getElem]
        exact le_of_not_lt h

theorem optVictim_max (key : Frame → Nat) (l : List Frame) (hne : l ≠ []) :
    ∃ hres : optVictim key l < l.length,
      ∀ j (hj : j < l.length),
        key (l.get ⟨j, hj⟩) ≤ key (l.get ⟨optVictim key l, hres⟩) := by
  have hlen : 0 < l.length := List.length_pos.mpr hne
  exact optVictimGo_max key l l.length 0 0 (-1) (by omega) hlen
    (by omega) (fun j hj h => absurd h (Nat.not_lt_zero j))

/-- The absolute forward scan equals the current position plus the
relative next-use distance of the remaining trace. -/
theorem nextUseAbs_eq_add_nuD (refs : List Int) (start : Nat) (x : Int)
    (h : start ≤ refs.length) :
    nextUseAbs refs start x = start + nuD (refs.drop start) x := by
  unfold nextUseAbs nuD
  cases hf : (refs.drop start).findIdx? (fun y => y == x) with
  | some i => simp [hf]
  | none =>
    simp only [hf, Option.getD_none]
    rw [List.length_drop]
    omega

/-! ### Resident pages as a finite set -/

/-- The resident pages of a policy's container, as a finite set. -/
def resP (p : Policy) (s : SimState) : Finset Int := (residentList p s).toFinset

theorem residentList_ne_lfru {p : Policy} (hp : p ≠ Policy.LFRU) (s : SimState) :
    residentList p s = realPages (pagesOf s.table) := by
  cases p <;> first | rfl | exact absurd rfl hp

theorem mem_toFinset_realPages {ps : List Int} {x : Int} :
    x ∈ (realPages ps).toFinset ↔ x ∈ ps ∧ x ≠ -1 := by
  rw [List.mem_toFinset, mem_realPages]

theorem card_toFinset_realPages_le (ps : List Int) :
    (realPages ps).toFinset.card ≤ ps.length :=
  le_trans (List.toFinset_card_le _) (List.length_filter_le _ _)

theorem card_toFinset_realPages_lt {ps : List Int} (h : (-1 : Int) ∈ ps) :
    (realPages ps).toFinset.card < ps.length := by
  have h1 : (realPages ps).length < ps.length := by
    unfold realPages
    rw [List.length_filter_lt_length_iff_exists]
    exact ⟨-1, h, by simp⟩
  exact lt_of_le_of_lt (List.toFinset_card_le _) h1

theorem toFinset_realPages_set_subset {ps : List Int} {i : Nat} {r : Int} :
    (realPages (ps.set i r)).toFinset ⊆ insert r (realPages ps).toFinset := by
  intro x hx
  rw [List.mem_toFinset] at hx
  rcases mem_of_mem_realPages_set hx with h | h
  · exact Finset.mem_insert.mpr (Or.inl h)
  · exact Finset.mem_insert.mpr (Or.inr (List.mem_toFinset.mpr h))

theorem mem_toFinset_realPages_set {ps : List Int} {i : Nat} {r : Int}
    (hi : i < ps.length) (hr : r ≠ -1) :
    r ∈ (realPages (ps.set i r)).toFinset :=
  mem_toFinset_realPages.mpr ⟨List.mem_set ps i hi r, hr⟩

theorem realPages_eq_of_all_ne {ps : List Int} (h : ∀ x ∈ ps, x ≠ -1) :
    realPages ps = ps := by
  unfold realPages
  rw [List.filter_eq_self]
  intro a ha
  simpa using h a ha

theorem all_ne_of_emptyIdx?_none {l : List Frame} (h : emptyIdx? l = none) :
    ∀ x ∈ pagesOf l, x ≠ -1 := by
  intro x hx
  obtain ⟨f, hf, hfx⟩ := List.mem_map.mp hx
  rw [emptyIdx?, List.findIdx?_eq_none_iff] at h
  have h2 := h f hf
  simp only [beq_eq_false_iff_ne, ne_eq] at h2
  rw [← hfx]
  exact h2

theorem neg_one_mem_of_emptyIdx?_some {l : List Frame} {i : Nat}
    (h : emptyIdx? l = some i) : (-1 : Int) ∈ pagesOf l := by
  obtain ⟨hlt, hp, -⟩ := List.findIdx?_eq_some_iff_getElem.mp h
  have he : l[i].page = -1 := by simpa using hp
  rw [← he]
  exact List.mem_map_of_mem (fun f => f.page) (List.getElem_mem hlt)

/-! ### The demand-paging lower bound, generic over the policy -/

/-- Conditions one engine step must satisfy for the Belady lower bound:
hits are exactly residency, a step only ever adds the requested page, the
requested page is resident afterwards, and the resident set stays within
capacity. -/
def DPStep (F : Nat) (r : Int) (C C' : Finset Int) (fault : Bool) : Prop :=
  (fault = false ↔ r ∈ C) ∧ C' ⊆ insert r C ∧ r ∈ C' ∧ C.card ≤ F ∧ C'.card ≤ F

/-- Any run whose steps satisfy `DPStep` incurs at least the cost-to-go
many faults. -/
theorem runSeg_lb (F : Nat) (p : Policy) (refs : List Int) (rnd : Nat → Nat)
    (Inv : SimState → Prop)
    (hstep : ∀ t s, t < refs.length → Inv s →
      Inv (processRef p refs rnd t s) ∧
      DPStep F (refs.getD t 0) (resP p s) (resP p (processRef p refs rnd t s))
        (stepOf p refs rnd t s).2) :
    ∀ (k t : Nat) (s : SimState), t + k = refs.length → Inv s →
      s.misses + optCost F (refs.drop t) (resP p s) ≤ (runSeg p refs rnd t k s).misses := by
  intro k
  induction k with
  | zero =>
    intro t s ht hInv
    have hteq : t = refs.length := by omega
    subst hteq
    rw [List.drop_length, optCost_nil]
    exact Nat.le_refl _
  | succ k ih =>
    intro t s ht hInv
    have htlt : t < refs.length := by omega
    obtain ⟨hInv', hiff, hsub, hmem, hcard, hcard'⟩ := hstep t s htlt hInv
    have hdrop : refs.drop t = refs.getD t 0 :: refs.drop (t + 1) := by
      rw [List.drop_eq_getElem_cons htlt]
      congr 1
      rw [List.getD_eq_getElem?_getD, List.getElem?_eq_getElem htlt]
      rfl
    rw [hdrop]
    have hseg : runSeg p refs rnd t (k + 1) s =
        runSeg p refs rnd (t + 1) k (processRef p refs rnd t s) := rfl
    rw [hseg]
    have hm' := processRef_misses p refs rnd t s
    have hIH := ih (t + 1) (processRef p refs rnd t s) (by omega) hInv'
    set r := refs.getD t 0
    set C := resP p s
    set C' := resP p (processRef p refs rnd t s)
    cases hf : (stepOf p refs rnd t s).2 with
    | false =>
      have hrC : r ∈ C := hiff.mp hf
      rw [optCost_cons_mem hrC]
      have hCsub : C' ⊆ C := by
        intro x hx
        rcases Finset.mem_insert.mp (hsub hx) with h | h
        · rw [h]; exact hrC
        · exact h
      have hmono := optCost_mono F (refs.drop (t + 1)) C' C hCsub hcard
      have hms : (processRef p refs rnd t s).misses = s.misses := by
        rw [hm', hf]
        simp
      omega
    | true =>
      have hrC : r ∉ C := by
        intro h
        have h2 := hiff.mpr h
        rw [hf] at h2
        cases h2
      have hms : (processRef p refs rnd t s).misses = s.misses + 1 := by
        rw [hm', hf]
        simp
      by_cases hlt : C.card < F
      · rw [optCost_cons_lt hrC hlt]
        have h1 : optCost F (refs.drop (t + 1)) (insert r C) ≤
            optCost F (refs.drop (t + 1)) C' := by
          refine optCost_mono F _ C' (insert r C) hsub ?_
          have := Finset.card_insert_le r C
          omega
        have h2 := Nat.min_le_left (optCost F (refs.drop (t + 1)) (insert r C))
          (minOver C (fun q => optCost F (refs.drop (t + 1)) (insert r (C.erase q)))
            (optCost F (refs.drop (t + 1)) (insert r C)))
        omega
      · rw [optCost_cons_full hrC hlt]
        have hcC : C.card = F := by omega
        have hne : C' ≠ insert r C := by
          intro he
          have h1 : (insert r C).card = F + 1 := by
            rw [Finset.card_insert_of_not_mem hrC, hcC]
          rw [he, h1] at hcard'
          omega
        obtain ⟨q, hqmem, hqnot⟩ := Finset.exists_of_ssubset
          (Finset.ssubset_iff_subset_ne.mpr ⟨hsub, hne⟩)
        have hqr : q ≠ r := fun he => hqnot (he ▸ hmem)
        have hqC : q ∈ C := by
          rcases Finset.mem_insert.mp hqmem with h | h
          · exact absurd h hqr
          · exact h
        have hsub' : C' ⊆ insert r (C.erase q) := by
          intro x hx
          rcases Finset.mem_insert.mp (hsub hx) with h | h
          · exact Finset.mem_insert.mpr (Or.inl h)
          · refine Finset.mem_insert.mpr (Or.inr (Finset.mem_erase.mpr ⟨?_, h⟩))
            intro he
            rw [he] at hx
            exact hqnot hx
        have h1 : optCost F (refs.drop (t + 1)) (insert r (C.erase q)) ≤
            optCost F (refs.drop (t + 1)) C' := by
          refine optCost_mono F _ C' _ hsub' ?_
          exact le_trans (card_insert_erase_le hqC) (le_of_eq hcC)
        have h2 : minOver C
            (fun q => optCost F (refs.drop (t + 1)) (insert r (C.erase q))) 0 ≤
            optCost F (refs.drop (t + 1)) (insert r (C.erase q)) := minOver_le hqC
        omega

/-- Table length is preserved by every policy step. -/
theorem stepOf_table_length (p : Policy) (refs : List Int) (rnd : Nat → Nat) (t : Nat)
    (s : SimState) : (stepOf p refs rnd t s).1.table.length = s.table.length := by
  by_cases hp : p = Policy.LFRU
  · subst hp
    rw [show (stepOf Policy.LFRU refs rnd t s).1 = (lfruStep s (refs.getD t 0) t).1 from rfl,
      lfruStep_table]
  · rcases stepOf_table_shape p hp refs rnd t s with ⟨-, heq, -⟩ | ⟨-, -, hcase⟩
    · exact length_eq_of_pagesOf_eq heq
    · rcases hcase with ⟨-, heq⟩ | ⟨i, -, heq⟩
      · exact length_eq_of_pagesOf_eq heq
      · exact length_eq_of_pagesOf_set heq

/-- Every non-LFRU policy step satisfies the demand-paging conditions on
its page table. -/
theorem table_policy_step (F : Nat) (hF : 1 ≤ F) (p : Policy) (hp : p ≠ Policy.LFRU)
    (refs : List Int) (rnd : Nat → Nat) (t : Nat) (s : SimState)
    (hr1 : refs.getD t 0 ≠ -1)
    (hlen : s.table.length = F) :
    (processRef p refs rnd t s).table.length = F ∧
    DPStep F (refs.getD t 0) (resP p s) (resP p (processRef p refs rnd t s))
      (stepOf p refs rnd t s).2 := by
  obtain ⟨htab, -, -, -, -, -⟩ := processRef_fields p refs rnd t s
  have hres : resP p s = (realPages (pagesOf s.table)).toFinset := by
    rw [resP, residentList_ne_lfru hp]
  have hres' : resP p (processRef p refs rnd t s) =
      (realPages (pagesOf (stepOf p refs rnd t s).1.table)).toFinset := by
    rw [resP, residentList_ne_lfru hp, htab]
  have hlen' : (processRef p refs rnd t s).table.length = F := by
    rw [htab, stepOf_table_length p refs rnd t s]
    exact hlen
  have hcardS : (realPages (pagesOf s.table)).toFinset.card ≤ F := by
    have h := card_toFinset_realPages_le (pagesOf s.table)
    rw [pagesOf_length, hlen] at h
    exact h
  have hcardS' : (realPages (pagesOf (stepOf p refs rnd t s).1.table)).toFinset.card ≤ F := by
    have h := card_toFinset_realPages_le (pagesOf (stepOf p refs rnd t s).1.table)
    rw [pagesOf_length, stepOf_table_length p refs rnd t s, hlen] at h
    exact h
  refine ⟨hlen', ?_⟩
  rcases stepOf_table_shape p hp refs rnd t s with ⟨hfl, heq, hmem⟩ | ⟨hfl, hnot, hcase⟩
  · -- hit: pages unchanged
    refine ⟨?_, ?_, ?_, ?_, ?_⟩
    · rw [hres]
      exact iff_of_true hfl (mem_toFinset_realPages.mpr ⟨hmem, hr1⟩)
    · rw [hres, hres', heq]
      exact Finset.subset_insert _ _
    · rw [hres', heq]
      exact mem_toFinset_realPages.mpr ⟨hmem, hr1⟩
    · rw [hres]; exact hcardS
    · rw [hres']; exact hcardS'
  · -- fault: one slot overwritten
    rcases hcase with ⟨hnil, -⟩ | ⟨i, hilt, heq⟩
    · exfalso
      have h0 := congrArg List.length hnil
      rw [pagesOf_length, List.length_nil] at h0
      omega
    · refine ⟨?_, ?_, ?_, ?_, ?_⟩
      · rw [hres]
        refine iff_of_false (by simp [hfl]) ?_
        intro h
        exact hnot (mem_toFinset_realPages.mp h).1
      · rw [hres, hres', heq]
        exact toFinset_realPages_set_subset
      · rw [hres', heq]
        exact mem_toFinset_realPages_set hilt hr1
      · rw [hres]; exact hcardS
      · rw [hres']; exact hcardS'

/-- The LFRU invariant carried along a run: real partition sizes and
duplicate-freedom. -/
def LfruInv (s : SimState) : Prop :=
  s.priv.length = PRIVILEGED_PARTITION_SIZE ∧
  s.unpriv.length = UNPRIVILEGED_PARTITION_SIZE ∧
  (realPages (pagesOf s.priv ++ pagesOf s.unpriv)).Nodup

/-- The LFRU step satisfies the demand-paging conditions on the union of
its two partitions — within the fixed pool capacity `P₁ + P₂ = 10`, not
within the configured frame count. -/
theorem lfru_policy_step (F : Nat) (hF : totalLFRUFrames ≤ F) (refs : List Int)
    (rnd : Nat → Nat) (t : Nat) (s : SimState)
    (hr1 : refs.getD t 0 ≠ -1) (hInv : LfruInv s) :
    LfruInv (processRef Policy.LFRU refs rnd t s) ∧
    DPStep F (refs.getD t 0) (resP Policy.LFRU s)
      (resP Policy.LFRU (processRef Policy.LFRU refs rnd t s))
      (stepOf Policy.LFRU refs rnd t s).2 := by
  obtain ⟨hP, hU, hnd⟩ := hInv
  obtain ⟨-, hpv, hup, -, -, -⟩ := processRef_fields Policy.LFRU refs rnd t s
  obtain ⟨sNodup, sLenP, sLenU, sIff, sSub, sMem⟩ := lfruStep_spec s (refs.getD t 0) t hnd
  have hstep : stepOf Policy.LFRU refs rnd t s = lfruStep s (refs.getD t 0) t := rfl
  rw [hstep] at hpv hup
  have hres : resP Policy.LFRU s =
      (realPages (pagesOf s.priv ++ pagesOf s.unpriv)).toFinset := rfl
  have hres' : resP Policy.LFRU (processRef Policy.LFRU refs rnd t s) =
      (realPages (pagesOf (lfruStep s (refs.getD t 0) t).1.priv ++
        pagesOf (lfruStep s (refs.getD t 0) t).1.unpriv)).toFinset := by
    rw [resP]
    show (realPages (pagesOf (processRef Policy.LFRU refs rnd t s).priv ++
      pagesOf (processRef Policy.LFRU refs rnd t s).unpriv)).toFinset = _
    rw [hpv, hup]
  have hPne : s.priv ≠ [] := by
    intro h
    rw [h] at hP
    simp [PRIVILEGED_PARTITION_SIZE] at hP
  have hcount : ∀ (a b : List Frame), a.length = PRIVILEGED_PARTITION_SIZE →
      b.length = UNPRIVILEGED_PARTITION_SIZE →
      (realPages (pagesOf a ++ pagesOf b)).toFinset.card ≤ F := by
    intro a b ha hb
    have h := card_toFinset_realPages_le (pagesOf a ++ pagesOf b)
    rw [List.length_append, pagesOf_length, pagesOf_length, ha, hb] at h
    exact le_trans h hF
  refine ⟨⟨?_, ?_, ?_⟩, ?_, ?_, ?_, ?_, ?_⟩
  · rw [hpv, sLenP]; exact hP
  · rw [hup, sLenU]; exact hU
  · rw [hpv, hup]; exact sNodup
  · rw [hres]
    refine Iff.trans sIff ?_
    exact Iff.intro (fun h => mem_toFinset_realPages.mpr ⟨h, hr1⟩)
      (fun h => (mem_toFinset_realPages.mp h).1)
  · rw [hres, hres']
    intro x hx
    rcases sSub x (List.mem_toFinset.mp hx) with h | h
    · exact Finset.mem_insert.mpr (Or.inl h)
    · exact Finset.mem_insert.mpr (Or.inr (List.mem_toFinset.mpr h))
  · rw [hres']
    exact List.mem_toFinset.mpr (sMem hPne hr1)
  · rw [hres]
    exact hcount s.priv s.unpriv hP hU
  · rw [hres']
    exact hcount _ _ (sLenP.trans hP) (sLenU.trans hU)

/-- Every catalogue policy's full-trace run incurs at least
`optCost F refs ∅` misses (for LFRU, within its fixed pool — hence the
`totalLFRUFrames ≤ F` proviso). -/
theorem run_lb_policy (F : Nat) (hF : 1 ≤ F) (p : Policy)
    (hFl : p = Policy.LFRU → totalLFRUFrames ≤ F)
    (refs : List Int) (rnd : Nat → Nat) (hval : ∀ x ∈ refs, 0 ≤ x) :
    optCost F refs ∅ ≤ (runSim F p refs rnd refs.length).misses := by
  have hr1 : ∀ t, t < refs.length → refs.getD t 0 ≠ -1 := by
    intro t ht he
    have hmem : refs.getD t 0 ∈ refs := by
      rw [List.getD_eq_getElem?_getD, List.getElem?_eq_getElem ht]
      exact List.getElem_mem ht
    have := hval _ hmem
    omega
  rw [runSim, runSimFrom_eq_runSeg]
  by_cases hp : p = Policy.LFRU
  · subst hp
    have h := runSeg_lb F Policy.LFRU refs rnd LfruInv
      (fun t s ht hInv => lfru_policy_step F (hFl rfl) refs rnd t s (hr1 t ht) hInv)
      refs.length 0 (initState F 0) (by omega) ?_
    · have hinit : resP Policy.LFRU (initState F 0) = ∅ := by
        show (realPages (pagesOf (initState F 0).priv ++
          pagesOf (initState F 0).unpriv)).toFinset = ∅
        rw [initState_partitions_nodup]
        rfl
      rw [List.drop_zero, hinit] at h
      exact le_trans (Nat.le_add_left _ _) h
    · refine ⟨?_, ?_, ?_⟩
      · show (initPartition PRIVILEGED_PARTITION_SIZE).length = PRIVILEGED_PARTITION_SIZE
        simp [initPartition]
      · show (initPartition UNPRIVILEGED_PARTITION_SIZE).length = UNPRIVILEGED_PARTITION_SIZE
        simp [initPartition]
      · rw [initState_partitions_nodup]
        exact List.nodup_nil
  · have h := runSeg_lb F p refs rnd (fun s => s.table.length = F)
      (fun t s ht hInv => table_policy_step F hF p hp refs rnd t s (hr1 t ht) hInv)
      refs.length 0 (initState F 0) (by omega) ?_
    · have hinit : resP p (initState F 0) = ∅ := by
        rw [resP, residentList_ne_lfru hp, initState_table_nodup]
        rfl
      rw [List.drop_zero, hinit] at h
      exact le_trans (Nat.le_add_left _ _) h
    · simp [initState, Function.comp_def]

/-- Overwriting slot `v` keeps every other resident page: the abstract
successor cache embeds into the concrete one. -/
theorem insert_erase_subset_toFinset_set {ps : List Int} {v : Nat} {r x0 : Int}
    (hv : v < ps.length) (hx0 : ps.get ⟨v, hv⟩ = x0) (hr : r ≠ -1) :
    insert r (((realPages ps).toFinset).erase x0) ⊆ (realPages (ps.set v r)).toFinset := by
  intro x hx
  rcases Finset.mem_insert.mp hx with he | hx
  · rw [he]
    exact mem_toFinset_realPages_set hv hr
  · obtain ⟨hxne, hmem⟩ := Finset.mem_erase.mp hx
    obtain ⟨hmem2, hne⟩ := mem_toFinset_realPages.mp hmem
    obtain ⟨j, hj, hje⟩ := List.mem_iff_getElem.mp hmem2
    have hji : j ≠ v := by
      intro he2
      subst he2
      apply hxne
      rw [← hje, ← hx0, List.get_eq_getElem]
    refine mem_toFinset_realPages.mpr ⟨?_, hne⟩
    rw [List.mem_iff_getElem]
    refine ⟨j, by rw [List.length_set]; omega, ?_⟩
    rw [List.getElem_set_ne (fun h => hji h.symm)]
    exact hje

/-- Case description of the `optimal` step used by the upper bound: a hit
leaves the pages alone; a fault fills the first empty slot, or — with a
full table — overwrites the frame whose page's next use is farthest. -/
theorem optimalStep_cases (refs : List Int) (s : SimState) (r : Int) (t : Nat) :
    ((optimalStep refs s r t).2 = false ∧
      pagesOf (optimalStep refs s r t).1.table = pagesOf s.table ∧ r ∈ pagesOf s.table) ∨
    ((optimalStep refs s r t).2 = true ∧ r ∉ pagesOf s.table ∧
      ((∃ i, (pagesOf s.table)[i]? = some (-1) ∧
          pagesOf (optimalStep refs s r t).1.table = (pagesOf s.table).set i r) ∨
       ((-1 : Int) ∉ pagesOf s.table ∧
        ∃ (v : Nat) (hv : v < s.table.length),
          pagesOf (optimalStep refs s r t).1.table = (pagesOf s.table).set v r ∧
          ∀ j (hj : j < s.table.length),
            nextUseAbs refs (t + 1) ((s.table.get ⟨j, hj⟩).page) ≤
              nextUseAbs refs (t + 1) ((s.table.get ⟨v, hv⟩).page)) ∨
       s.table = [])) := by
  unfold optimalStep
  cases hhit : hitIdx? s.table r with
  | some i =>
    dsimp only
    exact Or.inl ⟨rfl, pagesOf_updateAt_meta _ _ _ (fun f => rfl),
      mem_pagesOf_of_hitIdx?_some hhit⟩
  | none =>
    have hr : r ∉ pagesOf s.table := not_mem_pagesOf_of_hitIdx?_none hhit
    cases hemp : emptyIdx? s.table with
    | some i =>
      dsimp only
      obtain ⟨hlt, hp, -⟩ := List.findIdx?_eq_some_iff_getElem.mp hemp
      refine Or.inr ⟨rfl, hr, Or.inl ⟨i, ?_, ?_⟩⟩
      · have hpage : s.table[i].page = -1 := by simpa using hp
        rw [pagesOf_getElem?, List.getElem?_eq_getElem hlt]
        simp [hpage]
      · exact pagesOf_updateAt_of_getElem? _ _ _ _ (List.getElem?_eq_getElem hlt)
    | none =>
      by_cases hnil : s.table = []
      · dsimp only
        cases htb : s.table[optVictim (fun f => nextUseAbs refs (t + 1) f.page) s.table]? with
        | some vf => exact Or.inr ⟨rfl, hr, Or.inr (Or.inr hnil)⟩
        | none => exact Or.inr ⟨rfl, hr, Or.inr (Or.inr hnil)⟩
      · dsimp only
        obtain ⟨hv, hmax⟩ := optVictim_max (fun f => nextUseAbs refs (t + 1) f.page) s.table hnil
        cases htb : s.table[optVictim (fun f => nextUseAbs refs (t + 1) f.page) s.table]? with
        | some vf =>
          dsimp only
          refine Or.inr ⟨rfl, hr, Or.inr (Or.inl ⟨?_, _, hv, ?_, hmax⟩)⟩
          · intro h
            exact all_ne_of_emptyIdx?_none hemp (-1) h rfl
          · exact pagesOf_set _ _ _
        | none =>
          exfalso
          rw [List.getElem?_eq_none_iff] at htb
          omega

/-- The `optimal` run attains the demand-paging cost-to-go: farthest-in-
future eviction is an optimal offline strategy. -/
theorem runSeg_opt_le (F : Nat) (hF : 1 ≤ F) (refs : List Int) (rnd : Nat → Nat)
    (hval : ∀ x ∈ refs, 0 ≤ x) :
    ∀ (k t : Nat) (s : SimState), t + k = refs.length →
      s.table.length = F → (realPages (pagesOf s.table)).Nodup →
      (runSeg Policy.OPTIMAL refs rnd t k s).misses ≤
        s.misses + optCost F (refs.drop t) ((realPages (pagesOf s.table)).toFinset) := by
  intro k
  induction k with
  | zero =>
    intro t s ht hlen hnd
    have hteq : t = refs.length := by omega
    subst hteq
    rw [List.drop_length, optCost_nil]
    exact Nat.le_refl _
  | succ k ih =>
    intro t s ht hlen hnd
    have htlt : t < refs.length := by omega
    have hrmem : refs.getD t 0 ∈ refs := by
      rw [List.getD_eq_getElem?_getD, List.getElem?_eq_getElem htlt]
      exact List.getElem_mem htlt
    have hr0 : 0 ≤ refs.getD t 0 := hval _ hrmem
    have hr1 : refs.getD t 0 ≠ -1 := by omega
    have hdrop : refs.drop t = refs.getD t 0 :: refs.drop (t + 1) := by
      rw [List.drop_eq_getElem_cons htlt]
      congr 1
      rw [List.getD_eq_getElem?_getD, List.getElem?_eq_getElem htlt]
      rfl
    rw [hdrop]
    have hseg : runSeg Policy.OPTIMAL refs rnd t (k + 1) s =
        runSeg Policy.OPTIMAL refs rnd (t + 1) k (processRef Policy.OPTIMAL refs rnd t s) := rfl
    rw [hseg]
    obtain ⟨htab, -, -, -, -, -⟩ := processRef_fields Policy.OPTIMAL refs rnd t s
    have hstep : stepOf Policy.OPTIMAL refs rnd t s =
        optimalStep refs s (refs.getD t 0) t := rfl
    rw [hstep] at htab
    have hm' := processRef_misses Policy.OPTIMAL refs rnd t s
    rw [hstep] at hm'
    have hlenstep := stepOf_table_length Policy.OPTIMAL refs rnd t s
    rw [hstep] at hlenstep
    have hlen2 : (processRef Policy.OPTIMAL refs rnd t s).table.length = F := by
      rw [htab, hlenstep]
      exact hlen
    set r := refs.getD t 0 with hrdef
    rcases optimalStep_cases refs s r t with ⟨hfl, hpg, hmem⟩ | ⟨hfl, hnot, hcase⟩
    · -- hit: pages and cost-to-go unchanged
      rw [optCost_cons_mem (mem_toFinset_realPages.mpr ⟨hmem, hr1⟩)]
      have hnd2 : (realPages (pagesOf
          (processRef Policy.OPTIMAL refs rnd t s).table)).Nodup := by
        rw [htab, hpg]
        exact hnd
      have hih := ih (t + 1) (processRef Policy.OPTIMAL refs rnd t s) (by omega) hlen2 hnd2
      rw [htab, hpg] at hih
      have hms : (processRef Policy.OPTIMAL refs rnd t s).misses = s.misses := by
        rw [hm', hfl]
        simp
      omega
    · -- fault
      have hrC : r ∉ (realPages (pagesOf s.table)).toFinset := fun h =>
        hnot (mem_toFinset_realPages.mp h).1
      have hrreal : r ∉ realPages (pagesOf s.table) := fun h => hnot (mem_realPages.mp h).1
      have hms : (processRef Policy.OPTIMAL refs rnd t s).misses = s.misses + 1 := by
        rw [hm', hfl]
        simp
      rcases hcase with ⟨i, hi, hpg⟩ | ⟨hneg1, v, hv, hpg, hmax⟩ | hnil
      · -- fault into an empty slot: insertion is the cheapest option
        have hilt : i < (pagesOf s.table).length := (List.getElem?_eq_some_iff.mp hi).1
        have higet : (pagesOf s.table).get ⟨i, hilt⟩ = -1 := by
          have h := (List.getElem?_eq_some_iff.mp hi).2
          rw [List.get_eq_getElem]
          exact h
        have hm1 : (-1 : Int) ∈ pagesOf s.table := by
          rw [← higet, List.get_eq_getElem]
          exact List.getElem_mem hilt
        have hCcard : (realPages (pagesOf s.table)).toFinset.card < F := by
          have h := card_toFinset_realPages_lt hm1
          rw [pagesOf_length, hlen] at h
          exact h
        rw [optCost_cons_lt hrC hCcard]
        have hnd2 : (realPages (pagesOf
            (processRef Policy.OPTIMAL refs rnd t s).table)).Nodup := by
          rw [htab, hpg]
          exact nodup_realPages_set hnd hrreal
        have hih := ih (t + 1) (processRef Policy.OPTIMAL refs rnd t s) (by omega) hlen2 hnd2
        rw [htab, hpg] at hih
        have hsup : insert r ((realPages (pagesOf s.table)).toFinset) ⊆
            (realPages ((pagesOf s.table).set i r)).toFinset := by
          have h1 := insert_erase_subset_toFinset_set hilt higet hr1
          rwa [Finset.erase_eq_of_not_mem (fun h =>
            (mem_toFinset_realPages.mp h).2 rfl)] at h1
        have hcard2 : (realPages ((pagesOf s.table).set i r)).toFinset.card ≤ F := by
          have h := card_toFinset_realPages_le ((pagesOf s.table).set i r)
          rw [List.length_set, pagesOf_length, hlen] at h
          exact h
        have hbound : optCost F (refs.drop (t + 1))
            ((realPages ((pagesOf s.table).set i r)).toFinset) ≤
            min (optCost F (refs.drop (t + 1))
                (insert r ((realPages (pagesOf s.table)).toFinset)))
              (minOver ((realPages (pagesOf s.table)).toFinset)
                (fun q => optCost F (refs.drop (t + 1))
                  (insert r (((realPages (pagesOf s.table)).toFinset).erase q)))
                (optCost F (refs.drop (t + 1))
                  (insert r ((realPages (pagesOf s.table)).toFinset)))) := by
          have hmono : optCost F (refs.drop (t + 1))
              ((realPages ((pagesOf s.table).set i r)).toFinset) ≤
              optCost F (refs.drop (t + 1))
                (insert r ((realPages (pagesOf s.table)).toFinset)) :=
            optCost_mono F _ _ _ hsup hcard2
          refine le_min hmono (le_minOver hmono ?_)
          intro q hq
          refine optCost_mono F _ _ _ ?_ hcard2
          exact Finset.Subset.trans
            (Finset.insert_subset_insert r (Finset.erase_subset q _)) hsup
        omega
      · -- fault with a full table: exchange against the attained option
        have hall : ∀ x ∈ pagesOf s.table, x ≠ -1 := fun x hx he => hneg1 (he ▸ hx)
        have hreals : realPages (pagesOf s.table) = pagesOf s.table :=
          realPages_eq_of_all_ne hall
        have hndps : (pagesOf s.table).Nodup := by rwa [hreals] at hnd
        have hCcard : (realPages (pagesOf s.table)).toFinset.card = F := by
          rw [hreals, List.toFinset_card_of_nodup hndps, pagesOf_length, hlen]
        rw [optCost_cons_full hrC (by omega)]
        have hv' : v < (pagesOf s.table).length := by
          rw [pagesOf_length]
          exact hv
        have hvp_get : (pagesOf s.table).get ⟨v, hv'⟩ = (s.table.get ⟨v, hv⟩).page := by
          rw [List.get_eq_getElem, List.get_eq_getElem]
          simp [pagesOf]
        set vp := (s.table.get ⟨v, hv⟩).page with hvpdef
        have hvpmem : vp ∈ pagesOf s.table := by
          rw [← hvp_get, List.get_eq_getElem]
          exact List.getElem_mem hv'
        have hvpC : vp ∈ (realPages (pagesOf s.table)).toFinset :=
          mem_toFinset_realPages.mpr ⟨hvpmem, hall vp hvpmem⟩
        obtain ⟨q0, hq0, hq0eq⟩ := minOver_attained
          (fun q => optCost F (refs.drop (t + 1))
            (insert r (((realPages (pagesOf s.table)).toFinset).erase q))) 0 ⟨vp, hvpC⟩
        have hnd2 : (realPages (pagesOf
            (processRef Policy.OPTIMAL refs rnd t s).table)).Nodup := by
          rw [htab, hpg]
          exact nodup_realPages_set hnd hrreal
        have hih := ih (t + 1) (processRef Policy.OPTIMAL refs rnd t s) (by omega) hlen2 hnd2
        rw [htab, hpg] at hih
        have hsup : insert r (((realPages (pagesOf s.table)).toFinset).erase vp) ⊆
            (realPages ((pagesOf s.table).set v r)).toFinset :=
          insert_erase_subset_toFinset_set hv' hvp_get hr1
        have hcard2 : (realPages ((pagesOf s.table).set v r)).toFinset.card ≤ F := by
          have h := card_toFinset_realPages_le ((pagesOf s.table).set v r)
          rw [List.length_set, pagesOf_length, hlen] at h
          exact h
        have hmono : optCost F (refs.drop (t + 1))
            ((realPages ((pagesOf s.table).set v r)).toFinset) ≤
            optCost F (refs.drop (t + 1))
              (insert r (((realPages (pagesOf s.table)).toFinset).erase vp)) :=
          optCost_mono F _ _ _ hsup hcard2
        have hexch : optCost F (refs.drop (t + 1))
            (insert r (((realPages (pagesOf s.table)).toFinset).erase vp)) ≤
            optCost F (refs.drop (t + 1))
              (insert r (((realPages (pagesOf s.table)).toFinset).erase q0)) := by
          by_cases hq0vp : q0 = vp
          · rw [hq0vp]
          · have hq0C : q0 ∈ (realPages (pagesOf s.table)).toFinset := hq0
            have hq0r : q0 ≠ r := fun h => hrC (h ▸ hq0C)
            have hvpr : vp ≠ r := fun h => hrC (h ▸ hvpC)
            have hq0evp : q0 ∈ ((realPages (pagesOf s.table)).toFinset).erase vp :=
              Finset.mem_erase.mpr ⟨hq0vp, hq0C⟩
            have hvpeq0 : vp ∈ ((realPages (pagesOf s.table)).toFinset).erase q0 :=
              Finset.mem_erase.mpr ⟨fun h => hq0vp h.symm, hvpC⟩
            have hL : insert r (((realPages (pagesOf s.table)).toFinset).erase vp) =
                insert q0 (insert r
                  ((((realPages (pagesOf s.table)).toFinset).erase vp).erase q0)) := by
              rw [Finset.Insert.comm, Finset.insert_erase hq0evp]
            have hR : insert r (((realPages (pagesOf s.table)).toFinset).erase q0) =
                insert vp (insert r
                  ((((realPages (pagesOf s.table)).toFinset).erase vp).erase q0)) := by
              rw [Finset.Insert.comm, Finset.erase_right_comm, Finset.insert_erase hvpeq0]
            have hq0D0 : q0 ∉ insert r
                ((((realPages (pagesOf s.table)).toFinset).erase vp).erase q0) := by
              intro h
              rcases Finset.mem_insert.mp h with h | h
              · exact hq0r h
              · exact (Finset.mem_erase.mp h).1 rfl
            have hvpD0 : vp ∉ insert r
                ((((realPages (pagesOf s.table)).toFinset).erase vp).erase q0) := by
              intro h
              rcases Finset.mem_insert.mp h with h | h
              · exact hvpr h
              · exact (Finset.mem_erase.mp (Finset.mem_of_mem_erase h)).1 rfl
            have hcD0 : (insert r
                ((((realPages (pagesOf s.table)).toFinset).erase vp).erase q0)).card + 1 ≤ F := by
              have h1 : (((realPages (pagesOf s.table)).toFinset).erase vp).card = F - 1 := by
                rw [Finset.card_erase_of_mem hvpC, hCcard]
              have h2 := Finset.card_erase_of_mem hq0evp
              have h3 := Finset.card_insert_le r
                ((((realPages (pagesOf s.table)).toFinset).erase vp).erase q0)
              have hF2 : 2 ≤ F := by
                have h4 := Finset.one_lt_card.mpr ⟨q0, hq0C, vp, hvpC, hq0vp⟩
                omega
              omega
            have hnu : nuD (refs.drop (t + 1)) q0 ≤ nuD (refs.drop (t + 1)) vp := by
              have hq0mem : q0 ∈ pagesOf s.table := (mem_toFinset_realPages.mp hq0C).1
              obtain ⟨j, hj, hje⟩ := List.mem_iff_getElem.mp hq0mem
              have hjt : j < s.table.length := by
                rw [pagesOf_length] at hj
                exact hj
              have hkey := hmax j hjt
              have hpage : (s.table.get ⟨j, hjt⟩).page = q0 := by
                rw [← hje, List.get_eq_getElem]
                simp [pagesOf]
              rw [hpage] at hkey
              rw [nextUseAbs_eq_add_nuD refs (t + 1) q0 (by omega),
                nextUseAbs_eq_add_nuD refs (t + 1) vp (by omega)] at hkey
              omega
            have hex := optCost_exchange F (refs.drop (t + 1))
              (insert r ((((realPages (pagesOf s.table)).toFinset).erase vp).erase q0))
              q0 vp hq0D0 hvpD0 hcD0 hnu
            rw [hL, hR]
            exact hex
        have hminle : optCost F (refs.drop (t + 1))
            ((realPages ((pagesOf s.table).set v r)).toFinset) ≤
            minOver ((realPages (pagesOf s.table)).toFinset)
              (fun q => optCost F (refs.drop (t + 1))
                (insert r (((realPages (pagesOf s.table)).toFinset).erase q))) 0 := by
          rw [hq0eq]
          exact le_trans hmono hexch
        omega
      · exfalso
        rw [hnil] at hlen
        simp at hlen
        omega

/-- The `optimal` run over a whole valid trace stays within the abstract
cost-to-go from the empty cache. -/
theorem run_opt_le (F : Nat) (hF : 1 ≤ F) (refs : List Int) (rnd : Nat → Nat)
    (hval : ∀ x ∈ refs, 0 ≤ x) :
    (runSim F Policy.OPTIMAL refs rnd refs.length).misses ≤ optCost F refs ∅ := by
  rw [runSim, runSimFrom_eq_runSeg]
  have h := runSeg_opt_le F hF refs rnd hval refs.length 0 (initState F 0) (by omega) ?_ ?_
  · rw [List.drop_zero] at h
    have hinit : (realPages (pagesOf (initState F 0).table)).toFinset = ∅ := by
      rw [initState_table_nodup]
      rfl
    rw [hinit] at h
    have hm0 : (initState F 0).misses = 0 := rfl
    rw [hm0, Nat.zero_add] at h
    exact h
  · simp [initState, Function.comp_def]
  · rw [initState_table_nodup]
    exact List.nodup_nil

/-- C1 counterexample.  The claim quantifies over *every* frame count: at
`F = 1` on the trace `0, 1, 0, 1` the OPTIMAL policy — confined to its
single configured frame — faults on all four references, while LFRU
serves two hits because its partition pool always holds
`P₁ + P₂ = 10` pages regardless of the configured frame count.  So
OPTIMAL's miss count is *not* ≤ LFRU's there, refuting the unrestricted
claim. -/
theorem c1_counterexample :
    ¬ ((runSim 1 Policy.OPTIMAL [0, 1, 0, 1] (fun _ => 0) 4).misses ≤
       (runSim 1 Policy.LFRU [0, 1, 0, 1] (fun _ => 0) 4).misses) := by decide

/-- C1 (amended).  Belady optimality with the LFRU proviso: for every
trace of valid (non-negative) page numbers, every frame count `F ≥ 1`
and every policy of the catalogue, after running the whole trace the
OPTIMAL policy's total miss count is at most that policy's — provided
`F ≥ P₁ + P₂ = 10` when the other policy is LFRU, whose fixed partition
pool ignores the configured frame count (see `c1_counterexample`). -/
theorem c1_optimal_le_all (F : Nat) (p : Policy) (refs : List Int) (rnd : Nat → Nat)
    (hF : 1 ≤ F) (hval : ∀ x ∈ refs, 0 ≤ x)
    (hlfru : p = Policy.LFRU → totalLFRUFrames ≤ F) :
    (runSim F Policy.OPTIMAL refs rnd refs.length).misses ≤
      (runSim F p refs rnd refs.length).misses :=
  le_trans (run_opt_le F hF refs rnd hval) (run_lb_policy F hF p hlfru refs rnd hval)

/-- Witness for `c1_optimal_le_all`: OPTIMAL against FIFO on a concrete
trace with one frame. -/
theorem c1_optimal_le_all_witness :
    (1 ≤ 1 ∧ (∀ x ∈ ([0, 1, 0] : List Int), 0 ≤ x) ∧
      (Policy.FIFO = Policy.LFRU → totalLFRUFrames ≤ 1)) ∧
    (runSim 1 Policy.OPTIMAL [0, 1, 0] (fun _ => 0) ([0, 1, 0] : List Int).length).misses ≤
      (runSim 1 Policy.FIFO [0, 1, 0] (fun _ => 0) ([0, 1, 0] : List Int).length).misses :=
  ⟨⟨by decide, by decide, by decide⟩,
    c1_optimal_le_all 1 Policy.FIFO [0, 1, 0] (fun _ => 0) (by decide) (by decide) (by decide)⟩

end CacheSim
